import Mathlib

/-!
Verification of the diff-stream parser of the `pr_prompt` repository
(`src/pr_prompt/diff_parser.py`), shallowly embedded in Lean.

Python strings are modelled as Lean `String`; the Python string
primitives used by the source (`str.split("\n")`, `"\n".join`,
`str.startswith`, the `in` substring test, whitespace `str.split()`,
slicing) are given explicit executable definitions over `List Char`
so that their behaviour is fully transparent.  Python's `dict` is
modelled as an insertion-ordered association list with in-place
overwrite, and a raised `ValueError` as `Except.error`.
-/

namespace PrPrompt

/-! ## Definitions: the embedded program and its declarative models -/

/-- The `DiffOperation` enum of `diff_parser.py`. -/
inductive DiffOperation where
  | MODIFIED
  | ADDED
  | DELETED
  | RENAMED
  | RENAMED_AND_MODIFIED
deriving DecidableEq, Repr

/-- The `DiffFile` dataclass of `diff_parser.py`. -/
structure DiffFile where
  path : String
  operation_type : DiffOperation
  content : String
deriving DecidableEq, Repr

/-- The `ValueError`s raised by `extract_file_path_from_diff_header`,
with the offending header line as payload (the Python messages are
f-strings embedding the header line). -/
inductive DiffError where
  | invalidFormat (header : String)
  | missingBSlash (header : String)
deriving DecidableEq, Repr

/-- The header line carried by a `DiffError`. -/
def DiffError.headerLine : DiffError → String
  | .invalidFormat h => h
  | .missingBSlash h => h

instance exceptDecEq {ε α : Type} [DecidableEq ε] [DecidableEq α] :
    DecidableEq (Except ε α) := fun x y =>
  match x, y with
  | .error e, .error e' =>
    if h : e = e' then isTrue (by rw [h])
    else isFalse (fun hc => h (by injection hc))
  | .ok a, .ok a' =>
    if h : a = a' then isTrue (by rw [h])
    else isFalse (fun hc => h (by injection hc))
  | .error _, .ok _ => isFalse (fun hc => Except.noConfusion hc)
  | .ok _, .error _ => isFalse (fun hc => Except.noConfusion hc)

/-- Test `pfxChars p s` : the char list `p` is a prefix of `s`
(Python `s.startswith(p)` at char level). -/
def pfxChars : List Char → List Char → Bool
  | [], _ => true
  | _ :: _, [] => false
  | p :: ps, c :: cs => p = c && pfxChars ps cs

/-- Python `s.startswith(p)`. -/
def strStarts (s p : String) : Bool := pfxChars p.data s.data

/-- Test `subChars pat s` : `pat` occurs as a contiguous sublist of `s`
(Python `pat in s` at char level). -/
def subChars (pat : List Char) : List Char → Bool
  | [] => pfxChars pat []
  | s@(_ :: rest) => pfxChars pat s || subChars pat rest

/-- Python substring test `pat in s`. -/
def strContains (s pat : String) : Bool := subChars pat.data s.data

/-- Python `s.split("\n")` at char level: split on every newline,
keeping empty pieces; the empty string yields `[""]`. -/
def splitNlChars : List Char → List String
  | [] => [""]
  | c :: cs =>
    if c = '\n' then "" :: splitNlChars cs
    else
      match splitNlChars cs with
      | [] => [String.mk [c]]
      | s :: rest => String.mk (c :: s.data) :: rest

/-- Python `s.split("\n")`. -/
def splitOnNl (s : String) : List String := splitNlChars s.data

/-- Python `"\n".join(lines)`. -/
def joinNl : List String → String
  | [] => ""
  | [s] => s
  | s :: rest => s ++ "\n" ++ joinNl rest

/-- The whitespace characters recognised by Python's no-argument
`str.split()` (ASCII range; the source only ever feeds it ASCII
diff headers). -/
def isPySpace (c : Char) : Bool :=
  c = ' ' || c = '\t' || c = '\n' || c = '\r' || c = '\x0b' || c = '\x0c'

/-- Helper for `pySplit`: `acc` holds the current token reversed. -/
def pySplitAux : List Char → List Char → List String
  | [], [] => []
  | [], acc => [String.mk acc.reverse]
  | c :: cs, acc =>
    if isPySpace c then
      match acc with
      | [] => pySplitAux cs []
      | _ => String.mk acc.reverse :: pySplitAux cs []
    else pySplitAux cs (c :: acc)

/-- Python's no-argument `s.split()`: split on runs of whitespace,
dropping empty tokens. -/
def pySplit (s : String) : List String := pySplitAux s.data []

/-- Python slice `s[n:]`. -/
def strDropChars (s : String) (n : Nat) : String := String.mk (s.data.drop n)

/-- Python `d[k] = v`: overwrite in place if the key is present,
else append. -/
def dictInsert (d : List (String × String)) (k v : String) :
    List (String × String) :=
  if d.any (fun kv => kv.1 = k) then
    d.map (fun kv => if kv.1 = k then (k, v) else kv)
  else d ++ [(k, v)]

/-- Lookup in the association-list model of a Python dict. -/
def dictLookup (d : List (String × String)) (k : String) : Option String :=
  match d with
  | [] => none
  | kv :: rest => if kv.1 = k then some kv.2 else dictLookup rest k

/-- The `b_path = parts[3]` access of
`extract_file_path_from_diff_header` (total, guarded by the length
check at every use site). -/
def fourthToken (l : String) : String := (pySplit l).getD 3 ""

/-- Function `extract_file_path_from_diff_header` of `diff_parser.py`:
tokenize the header on whitespace, require at least 4 tokens, take
the 4th, require a `"b/"` prefix, and strip it. -/
def extract_file_path_from_diff_header (diff_header : String) :
    Except DiffError String :=
  if (pySplit diff_header).length < 4 then
    .error (.invalidFormat diff_header)
  else if !(strStarts (fourthToken diff_header) "b/") then
    .error (.missingBSlash diff_header)
  else .ok (strDropChars (fourthToken diff_header) 2)

/-- Loop state of `parse_diff_by_files`: the accumulated dict, the
`current_file` variable (`none` = Python `None`) and the
`current_diff_lines` list. -/
structure ParseState where
  file_diffs : List (String × String)
  current_file : Option String
  current_diff_lines : List String
deriving DecidableEq, Repr

/-- Python truthiness of `current_file`: `None` and `""` are falsy. -/
def cfTruthy : Option String → Bool
  | none => false
  | some p => !(p = "")

/-- The `if current_file and current_file in whitelist_strings:
file_diffs[current_file] = "\n".join(current_diff_lines)` step of
`parse_diff_by_files`. -/
def savePrev (wl : List String) (st : ParseState) : List (String × String) :=
  match st.current_file with
  | none => st.file_diffs
  | some p =>
    if p ≠ "" ∧ p ∈ wl then
      dictInsert st.file_diffs p (joinNl st.current_diff_lines)
    else st.file_diffs

/-- The `for line in diff.split("\n")` loop of `parse_diff_by_files`. -/
def parseLoop (wl : List String) :
    List String → ParseState → Except DiffError ParseState
  | [], st => .ok st
  | line :: rest, st =>
    if strStarts line "diff --git" then
      match extract_file_path_from_diff_header line with
      | .error e => .error e
      | .ok p => parseLoop wl rest ⟨savePrev wl st, some p, [line]⟩
    else if cfTruthy st.current_file then
      parseLoop wl rest
        ⟨st.file_diffs, st.current_file, st.current_diff_lines ++ [line]⟩
    else parseLoop wl rest st

/-- Function `parse_diff_by_files` of `diff_parser.py`.  The whitelist is
modelled as the list of its path strings (`{str(f) for f in
file_whitelist}` in the source); a raised `ValueError` is
`Except.error`. -/
def parse_diff_by_files (diff : String) (wl : List String) :
    Except DiffError (List (String × String)) :=
  match parseLoop wl (splitOnNl diff) ⟨[], none, []⟩ with
  | .error e => .error e
  | .ok st => .ok (savePrev wl st)

/-- Result of the scanning loop of `clean_diff_content`: the
`operation_type`, `name_history` and `content_start_idx` variables
at loop exit. -/
structure ScanResult where
  operation_type : DiffOperation
  name_history : String
  content_start_idx : Nat
deriving DecidableEq, Repr

/-- The `for i, line in enumerate(lines)` loop of
`clean_diff_content`.  `hrf` is the loop-invariant value of the
`"rename from" in file_diff` test; `content_start_idx` is `0` unless
a `"@@"` line breaks the loop at index `i`. -/
def scanLoop (fp : String) (hrf : Bool) :
    List String → Nat → DiffOperation → String → ScanResult
  | [], _, op, nh => ⟨op, nh, 0⟩
  | line :: rest, i, op, nh =>
    if strStarts line "new file mode" then
      scanLoop fp hrf rest (i + 1) .ADDED nh
    else if strStarts line "deleted file mode" then
      scanLoop fp hrf rest (i + 1) .DELETED nh
    else if strStarts line "similarity index" && hrf then
      if strContains line "similarity index 100%" then
        scanLoop fp hrf rest (i + 1) .RENAMED nh
      else
        scanLoop fp hrf rest (i + 1) .RENAMED_AND_MODIFIED nh
    else if strStarts line "rename from " then
      scanLoop fp hrf rest (i + 1) op (line ++ " to " ++ fp)
    else if strStarts line "@@" then ⟨op, nh, i⟩
    else scanLoop fp hrf rest (i + 1) op nh

/-- Function `extract_diff_content` of `diff_parser.py`. -/
def extract_diff_content (lines : List String) (content_start_idx : Nat)
    (name_history : String) : String :=
  if lines.length ≤ content_start_idx then ""
  else
    let cleaned_lines := lines.drop content_start_idx
    joinNl (if name_history ≠ "" then name_history :: cleaned_lines
            else cleaned_lines)

/-- Function `clean_diff_content` of `diff_parser.py`. -/
def clean_diff_content (file_path file_diff : String) : DiffFile :=
  let lines := splitOnNl file_diff
  let r := scanLoop file_path (strContains file_diff "rename from")
    lines 0 .MODIFIED ""
  if r.operation_type = .RENAMED then
    ⟨file_path, r.operation_type, r.name_history⟩
  else
    ⟨file_path, r.operation_type,
      extract_diff_content lines r.content_start_idx r.name_history⟩

/-- Function `clean_file_diffs` of `diff_parser.py`: `clean_diff_content`
applied pointwise to every entry. -/
def clean_file_diffs (file_diffs : List (String × String)) :
    List (String × DiffFile) :=
  file_diffs.map (fun kv => (kv.1, clean_diff_content kv.1 kv.2))

def isHeaderLine (l : String) : Bool := strStarts l "diff --git"

/-- Accumulate the current (reversed) block while cutting blocks at
header lines. -/
def blocksAcc (cur : List String) : List String → List (List String)
  | [] => [cur.reverse]
  | l :: ls =>
    if isHeaderLine l then cur.reverse :: blocksAcc [l] ls
    else blocksAcc (l :: cur) ls

/-- The file blocks of a line list: each starts at a header line and
runs up to the next header line or the end; lines before the first
header belong to no block. -/
def blocksOf : List String → List (List String)
  | [] => []
  | l :: ls => if isHeaderLine l then blocksAcc [l] ls else blocksOf ls

/-- The destination path of a block, when its header extracts. -/
def blockPath (b : List String) : Option String :=
  match b with
  | [] => none
  | h :: _ => (extract_file_path_from_diff_header h).toOption

/-- Replay one block into the dict model. -/
def saveBlock (wl : List String) (fd : List (String × String))
    (b : List String) : List (String × String) :=
  match blockPath b with
  | none => fd
  | some p => if p ≠ "" ∧ p ∈ wl then dictInsert fd p (joinNl b) else fd

/-- Replay a list of blocks into the dict model. -/
def segModelLoop (wl : List String) (fd : List (String × String)) :
    List (List String) → List (String × String)
  | [] => fd
  | b :: bs => segModelLoop wl (saveBlock wl fd b) bs

/-- Declarative model of the Segmenter on pre-split lines. -/
def segModel (wl : List String) (lines : List String) :
    List (String × String) :=
  segModelLoop wl [] (blocksOf lines)

/-- Sequencing on `Except` (explicit, to keep rewriting predictable). -/
def exceptStep {α β : Type} (x : Except DiffError α)
    (f : α → Except DiffError β) : Except DiffError β :=
  match x with
  | .error e => .error e
  | .ok a => f a

def isHunkLine (l : String) : Bool := strStarts l "@@"

/-- The lines scanned before the loop breaks at the first hunk line. -/
def preHunk (lines : List String) : List String :=
  lines.takeWhile (fun l => !(isHunkLine l))

/-- A line that (re)assigns `operation_type` in the scan, given the
value `hrf` of the whole-block `"rename from" in file_diff` test. -/
def isOpSignal (hrf : Bool) (l : String) : Bool :=
  strStarts l "new file mode" || strStarts l "deleted file mode" ||
    (strStarts l "similarity index" && hrf)

/-- The operation assigned by an operation-signal line. -/
def sigOp (l : String) : DiffOperation :=
  if strStarts l "new file mode" then .ADDED
  else if strStarts l "deleted file mode" then .DELETED
  else if strContains l "similarity index 100%" then .RENAMED
  else .RENAMED_AND_MODIFIED

def isRenameFromLine (l : String) : Bool := strStarts l "rename from "

/-- The last element of a list satisfying `f`, if any. -/
def lastWith (f : String → Bool) : List String → Option String
  | [] => none
  | l :: rest =>
    match lastWith f rest with
    | some r => some r
    | none => if f l then some l else none

/-- Index of the first hunk line; `0` when there is none (mirroring
the Python initialisation `content_start_idx = 0`). -/
def firstHunkIdx (lines : List String) : Nat :=
  if lines.any isHunkLine then lines.findIdx isHunkLine else 0

/-- The keys of the dict model, in insertion order. -/
def keysOf (d : List (String × String)) : List String := d.map Prod.fst

/-- The last block of `bs` whose destination path is `p`. -/
def lastBlockWith (p : String) : List (List String) → Option (List String)
  | [] => none
  | b :: rest =>
    match lastBlockWith p rest with
    | some r => some r
    | none => if blockPath b = some p then some b else none

/-- The value of the `"rename from" in file_diff` whole-block test. -/
def blockHrf (fd : String) : Bool := strContains fd "rename from"

/-- The operation resolved by the scan: the last operation-signal
line before the first hunk line, defaulting to `MODIFIED`. -/
def opChar (fd : String) : DiffOperation :=
  match lastWith (isOpSignal (blockHrf fd)) (preHunk (splitOnNl fd)) with
  | some l => sigOp l
  | none => .MODIFIED

/-- The rename note resolved by the scan: synthesised from the last
`"rename from "` line before the first hunk line. -/
def nhChar (fp fd : String) : String :=
  match lastWith isRenameFromLine (preHunk (splitOnNl fd)) with
  | some l => l ++ " to " ++ fp
  | none => ""

/-- The content start index resolved by the scan: the index of the
first `"@@"` line, or `0` if there is none. -/
def csiChar (fd : String) : Nat := firstHunkIdx (splitOnNl fd)

/-- The header well-formedness test of the spec: at least 4
whitespace tokens and a `"b/"` prefix on the 4th. -/
def wellFormedHeader (l : String) : Bool :=
  decide (4 ≤ (pySplit l).length) && strStarts (fourthToken l) "b/"

/-- The error `extract_file_path_from_diff_header` raises on a
malformed header. -/
def headerErr (l : String) : DiffError :=
  if (pySplit l).length < 4 then .invalidFormat l else .missingBSlash l

/-- The last element of a list, as an `Option`. -/
def listLast {α : Type} : List α → Option α
  | [] => none
  | a :: rest =>
    match listLast rest with
    | some r => some r
    | none => some a

/-- A line carrying any of the five markers the scan reacts to. -/
def hasSignalMarker (l : String) : Bool :=
  strStarts l "new file mode" || strStarts l "deleted file mode" ||
    strStarts l "similarity index" || strStarts l "rename from " ||
    strStarts l "@@"

/-! ## Theorems -/

@[simp] theorem mk_data (l : List Char) : (String.mk l).data = l := rfl

theorem bool_eq_false {b : Bool} (h : ¬(b = true)) : b = false := by
  cases b
  · rfl
  · exact absurd rfl h

theorem pfxChars_iff (p s : List Char) : pfxChars p s = true ↔ p <+: s := by
  induction p generalizing s with
  | nil => simp [pfxChars]
  | cons a as ih =>
    cases s with
    | nil => simp [pfxChars]
    | cons b bs =>
      simp only [pfxChars, Bool.and_eq_true, decide_eq_true_eq, ih,
        List.cons_prefix_cons]

theorem subChars_iff (p s : List Char) : subChars p s = true ↔ p <:+: s := by
  induction s with
  | nil => simp [subChars, pfxChars_iff, List.prefix_nil, List.infix_nil]
  | cons c cs ih =>
    simp only [subChars, Bool.or_eq_true, pfxChars_iff, ih]
    constructor
    · rintro (h | h)
      · exact List.IsPrefix.isInfix h
      · exact List.infix_cons h
    · rintro ⟨t, u, hl⟩
      cases t with
      | nil => exact Or.inl ⟨u, by simpa using hl⟩
      | cons x xs =>
        rw [List.cons_append] at hl
        injection hl with h1 h2
        exact Or.inr ⟨xs, u, h2⟩

theorem strStarts_iff (s p : String) :
    strStarts s p = true ↔ p.data <+: s.data := pfxChars_iff _ _

theorem strContains_iff (s p : String) :
    strContains s p = true ↔ p.data <:+: s.data := subChars_iff _ _

/-- A prefix of the contents transfers the `strStarts` test. -/
theorem strStarts_of_append (p t : String) :
    strStarts (p ++ t) p = true := by
  rw [strStarts_iff, String.data_append]
  exact List.prefix_append _ _

theorem splitNlChars_ne_nil (l : List Char) : splitNlChars l ≠ [] := by
  induction l with
  | nil => simp [splitNlChars]
  | cons c cs ih =>
    by_cases h : c = '\n'
    · simp [splitNlChars, h]
    · simp only [splitNlChars, h, if_false]
      cases hs : splitNlChars cs with
      | nil => simp
      | cons s rest => simp

theorem mem_splitNlChars_nlFree (l : List Char) :
    ∀ s ∈ splitNlChars l, '\n' ∉ s.data := by
  induction l with
  | nil =>
    intro s hs
    simp only [splitNlChars, List.mem_singleton] at hs
    subst hs; simp
  | cons c cs ih =>
    intro s hs
    by_cases h : c = '\n'
    · simp only [splitNlChars, h, if_true, List.mem_cons] at hs
      rcases hs with rfl | hs
      · simp
      · exact ih s hs
    · simp only [splitNlChars, h, if_false] at hs
      cases heq : splitNlChars cs with
      | nil => exact absurd heq (splitNlChars_ne_nil cs)
      | cons t rest =>
        rw [heq] at hs
        rcases List.mem_cons.mp hs with rfl | hmem
        · intro hc
          rcases List.mem_cons.mp hc with h' | h'
          · exact h h'.symm
          · exact ih t (heq ▸ List.mem_cons_self t rest) h'
        · exact ih s (heq ▸ List.mem_cons_of_mem t hmem)

theorem joinNl_cons (s : String) (t : String) (rest : List String) :
    joinNl (s :: t :: rest) = s ++ "\n" ++ joinNl (t :: rest) := rfl

theorem splitNlChars_newline_cons (cs : List Char) :
    splitNlChars ('\n' :: cs) = "" :: splitNlChars cs := by
  simp [splitNlChars]

theorem splitNlChars_cons_of_ne (c : Char) (cs : List Char) (h : c ≠ '\n') :
    splitNlChars (c :: cs) =
      match splitNlChars cs with
      | [] => [String.mk [c]]
      | s :: rest => String.mk (c :: s.data) :: rest := by
  simp [splitNlChars, h]

/-- Joining the split pieces restores the original character list. -/
theorem joinNl_splitNlChars (l : List Char) :
    (joinNl (splitNlChars l)).data = l := by
  induction l with
  | nil => simp [splitNlChars, joinNl]
  | cons c cs ih =>
    by_cases h : c = '\n'
    · subst h
      rw [splitNlChars_newline_cons]
      cases heq : splitNlChars cs with
      | nil => exact absurd heq (splitNlChars_ne_nil cs)
      | cons t rest =>
        rw [heq] at ih
        rw [joinNl_cons, String.data_append, String.data_append]
        simpa using ih
    · rw [splitNlChars_cons_of_ne c cs h]
      cases heq : splitNlChars cs with
      | nil => exact absurd heq (splitNlChars_ne_nil cs)
      | cons t rest =>
        rw [heq] at ih
        cases rest with
        | nil =>
          simp only [joinNl] at ih ⊢
          simp [ih]
        | cons u us =>
          rw [joinNl_cons] at ih ⊢
          rw [String.data_append, String.data_append] at ih ⊢
          simpa using ih

theorem joinNl_splitOnNl (s : String) : joinNl (splitOnNl s) = s :=
  String.ext (joinNl_splitNlChars s.data)

/-- Splitting a newline-free character list is the identity piece. -/
theorem splitNlChars_nlFree (l : List Char) (h : '\n' ∉ l) :
    splitNlChars l = [String.mk l] := by
  induction l with
  | nil => simp [splitNlChars]
  | cons c cs ih =>
    have hc : c ≠ '\n' := fun hc => h (hc ▸ List.mem_cons_self c cs)
    have hcs : '\n' ∉ cs := fun hm => h (List.mem_cons_of_mem c hm)
    simp [splitNlChars, hc, ih hcs]

theorem splitNlChars_append_newline (a rest : List Char) (h : '\n' ∉ a) :
    splitNlChars (a ++ '\n' :: rest) = String.mk a :: splitNlChars rest := by
  induction a with
  | nil => simp [splitNlChars_newline_cons]
  | cons c cs ih =>
    have hc : c ≠ '\n' := fun hc => h (hc ▸ List.mem_cons_self c cs)
    have hcs : '\n' ∉ cs := fun hm => h (List.mem_cons_of_mem c hm)
    rw [List.cons_append, splitNlChars_cons_of_ne c _ hc, ih hcs]

/-- Splitting a newline-joined list of newline-free lines recovers
the list. -/
theorem splitOnNl_joinNl (L : List String) (hne : L ≠ [])
    (h : ∀ s ∈ L, '\n' ∉ s.data) : splitOnNl (joinNl L) = L := by
  induction L with
  | nil => exact absurd rfl hne
  | cons s rest ih =>
    cases rest with
    | nil =>
      simp only [joinNl, splitOnNl]
      rw [splitNlChars_nlFree s.data (h s (List.mem_cons_self s []))]
    | cons t us =>
      rw [joinNl_cons]
      unfold splitOnNl
      rw [String.data_append, String.data_append]
      have hs : '\n' ∉ s.data := h s (List.mem_cons_self _ _)
      have hnl : ("\n".data : List Char) = ['\n'] := rfl
      rw [hnl, List.append_assoc, List.singleton_append]
      rw [splitNlChars_append_newline s.data _ hs]
      have ihr := ih (by simp)
        (fun x hx => h x (List.mem_cons_of_mem s hx))
      unfold splitOnNl at ihr
      rw [ihr]

theorem blocksOf_nil : blocksOf [] = [] := rfl

theorem blocksOf_cons_other (l : String) (ls : List String)
    (h : isHeaderLine l = false) :
    blocksOf (l :: ls) = blocksOf ls := by
  show (if isHeaderLine l then blocksAcc [l] ls else blocksOf ls)
    = blocksOf ls
  rw [if_neg (by simp [h])]

theorem blocksAcc_spec (ls : List String) : ∀ cur,
    blocksAcc cur ls =
      (cur.reverse ++ ls.takeWhile (fun x => !(isHeaderLine x))) ::
        blocksOf (ls.dropWhile (fun x => !(isHeaderLine x))) := by
  induction ls with
  | nil =>
    intro cur
    show [cur.reverse] = (cur.reverse ++ []) :: blocksOf []
    rw [List.append_nil]
    rfl
  | cons l ls ih =>
    intro cur
    show (if isHeaderLine l then cur.reverse :: blocksAcc [l] ls
          else blocksAcc (l :: cur) ls) = _
    rw [List.takeWhile_cons, List.dropWhile_cons]
    by_cases h : isHeaderLine l = true
    · rw [if_pos h]
      simp only [h, Bool.not_true, Bool.false_eq_true, if_false]
      rw [List.append_nil]
      congr 1
      show blocksAcc [l] ls
        = (if isHeaderLine l then blocksAcc [l] ls else blocksOf ls)
      rw [if_pos h]
    · have h' : isHeaderLine l = false := bool_eq_false h
      rw [if_neg (by simp [h'])]
      simp only [h', Bool.not_false, if_true]
      rw [ih (l :: cur)]
      congr 1
      rw [List.reverse_cons, List.append_assoc]
      rfl

theorem blocksOf_cons_header (l : String) (ls : List String)
    (h : isHeaderLine l = true) :
    blocksOf (l :: ls) =
      (l :: ls.takeWhile (fun x => !(isHeaderLine x))) ::
        blocksOf (ls.dropWhile (fun x => !(isHeaderLine x))) := by
  show (if isHeaderLine l then blocksAcc [l] ls else blocksOf ls) = _
  rw [if_pos h, blocksAcc_spec ls [l]]
  rfl

@[simp] theorem exceptStep_ok {α β : Type} (a : α)
    (f : α → Except DiffError β) : exceptStep (.ok a) f = f a := rfl

@[simp] theorem exceptStep_error {α β : Type} (e : DiffError)
    (f : α → Except DiffError β) :
    exceptStep (α := α) (.error e) f = .error e := rfl

theorem parse_eq_step (diff : String) (wl : List String) :
    parse_diff_by_files diff wl =
      exceptStep (parseLoop wl (splitOnNl diff) ⟨[], none, []⟩)
        (fun st => .ok (savePrev wl st)) := by
  unfold parse_diff_by_files exceptStep
  cases parseLoop wl (splitOnNl diff) ⟨[], none, []⟩ <;> rfl

theorem parseLoop_nil (wl : List String) (st : ParseState) :
    parseLoop wl [] st = .ok st := rfl

theorem parseLoop_cons (wl : List String) (line : String)
    (rest : List String) (st : ParseState) :
    parseLoop wl (line :: rest) st =
      if strStarts line "diff --git" then
        match extract_file_path_from_diff_header line with
        | .error e => .error e
        | .ok p => parseLoop wl rest ⟨savePrev wl st, some p, [line]⟩
      else if cfTruthy st.current_file then
        parseLoop wl rest
          ⟨st.file_diffs, st.current_file, st.current_diff_lines ++ [line]⟩
      else parseLoop wl rest st := rfl

theorem parseLoop_cons_header_ok (wl : List String) (line : String)
    (rest : List String) (st : ParseState) (p : String)
    (h : strStarts line "diff --git" = true)
    (hext : extract_file_path_from_diff_header line = .ok p) :
    parseLoop wl (line :: rest) st =
      parseLoop wl rest ⟨savePrev wl st, some p, [line]⟩ := by
  rw [parseLoop_cons, if_pos h, hext]

theorem parseLoop_cons_header_err (wl : List String) (line : String)
    (rest : List String) (st : ParseState) (e : DiffError)
    (h : strStarts line "diff --git" = true)
    (hext : extract_file_path_from_diff_header line = .error e) :
    parseLoop wl (line :: rest) st = .error e := by
  rw [parseLoop_cons, if_pos h, hext]

theorem parseLoop_cons_truthy (wl : List String) (line : String)
    (rest : List String) (st : ParseState)
    (h : strStarts line "diff --git" = false)
    (h2 : cfTruthy st.current_file = true) :
    parseLoop wl (line :: rest) st =
      parseLoop wl rest
        ⟨st.file_diffs, st.current_file, st.current_diff_lines ++ [line]⟩ := by
  rw [parseLoop_cons, if_neg (by simp [h]), if_pos h2]

theorem parseLoop_cons_other (wl : List String) (line : String)
    (rest : List String) (st : ParseState)
    (h : strStarts line "diff --git" = false)
    (h2 : cfTruthy st.current_file = false) :
    parseLoop wl (line :: rest) st = parseLoop wl rest st := by
  rw [parseLoop_cons, if_neg (by simp [h]), if_neg (by simp [h2])]

theorem parseLoop_append (wl : List String) (xs ys : List String)
    (st : ParseState) :
    parseLoop wl (xs ++ ys) st =
      exceptStep (parseLoop wl xs st) (fun st' => parseLoop wl ys st') := by
  induction xs generalizing st with
  | nil => simp [parseLoop_nil]
  | cons l ls ih =>
    rw [List.cons_append]
    by_cases h : strStarts l "diff --git"
    · cases hext : extract_file_path_from_diff_header l with
      | error e =>
        rw [parseLoop_cons_header_err wl l _ st e h hext,
          parseLoop_cons_header_err wl l ls st e h hext]
        rfl
      | ok p =>
        rw [parseLoop_cons_header_ok wl l _ st p h hext,
          parseLoop_cons_header_ok wl l ls st p h hext, ih]
    · by_cases h2 : cfTruthy st.current_file
      · rw [parseLoop_cons_truthy wl l _ st (by simpa using h) h2,
          parseLoop_cons_truthy wl l ls st (by simpa using h) h2, ih]
      · rw [parseLoop_cons_other wl l _ st (by simpa using h)
            (by simpa using h2),
          parseLoop_cons_other wl l ls st (by simpa using h)
            (by simpa using h2), ih]

theorem savePrev_falsy (wl : List String) (fd : List (String × String))
    (cf : Option String) (cur cur' : List String)
    (h : cfTruthy cf = false) :
    savePrev wl ⟨fd, cf, cur⟩ = savePrev wl ⟨fd, cf, cur'⟩ := by
  cases cf with
  | none => rfl
  | some p =>
    have hp : p = "" := by
      by_contra hne
      simp [cfTruthy, hne] at h
    subst hp
    simp [savePrev]

/-- Leading non-header lines contribute no block. -/
theorem blocksOf_dropWhile (ls : List String) :
    blocksOf (ls.dropWhile (fun x => !(isHeaderLine x))) = blocksOf ls := by
  induction ls with
  | nil => simp
  | cons l ls ih =>
    rw [List.dropWhile_cons]
    by_cases h : isHeaderLine l = true
    · rw [if_neg (by simp [h])]
    · have h' : isHeaderLine l = false := bool_eq_false h
      rw [if_pos (by simp [h']), ih, blocksOf_cons_other l ls h']

/-- Master lemma: running the parse loop from an arbitrary state and
finishing with the final save equals replaying the blocks of the
remaining lines, after first closing the currently open block
(extended by the leading non-header lines). -/
theorem parseLoop_segModel (wl : List String) (lines : List String)
    (fd : List (String × String)) (cf : Option String)
    (cur : List String)
    (hwf : ∀ l ∈ lines, isHeaderLine l = true →
      ∃ p, extract_file_path_from_diff_header l = .ok p) :
    exceptStep (parseLoop wl lines ⟨fd, cf, cur⟩)
        (fun st => .ok (savePrev wl st)) =
      .ok (segModelLoop wl
        (savePrev wl ⟨fd, cf,
          cur ++ lines.takeWhile (fun x => !(isHeaderLine x))⟩)
        (blocksOf lines)) := by
  induction lines generalizing fd cf cur with
  | nil => simp [parseLoop_nil, blocksOf, segModelLoop]
  | cons l ls ih =>
    by_cases h : isHeaderLine l = true
    · obtain ⟨p, hext⟩ := hwf l (List.mem_cons_self _ _) h
      rw [parseLoop_cons_header_ok wl l ls ⟨fd, cf, cur⟩ p h hext]
      have ihr := ih (savePrev wl ⟨fd, cf, cur⟩) (some p) [l]
        (fun x hx hh => hwf x (List.mem_cons_of_mem _ hx) hh)
      rw [ihr]
      rw [blocksOf_cons_header l ls h]
      have ht : (l :: ls).takeWhile (fun x => !(isHeaderLine x)) = [] := by
        rw [List.takeWhile_cons]
        simp [h]
      rw [ht, List.append_nil]
      simp only [segModelLoop, blocksOf_dropWhile]
      congr 2
      simp only [saveBlock, blockPath, hext, Except.toOption]
      simp only [savePrev, List.cons_append, List.nil_append]
    · have h' : strStarts l "diff --git" = false := by
        simpa [isHeaderLine] using h
      have hb : blocksOf (l :: ls) = blocksOf ls :=
        blocksOf_cons_other l ls (by simpa [isHeaderLine] using h')
      have ht : (l :: ls).takeWhile (fun x => !(isHeaderLine x)) =
          l :: ls.takeWhile (fun x => !(isHeaderLine x)) := by
        rw [List.takeWhile_cons]
        simp [isHeaderLine, h']
      rw [hb, ht]
      by_cases h2 : cfTruthy cf = true
      · rw [parseLoop_cons_truthy wl l ls ⟨fd, cf, cur⟩ h' h2]
        have ihr := ih fd cf (cur ++ [l])
          (fun x hx hh => hwf x (List.mem_cons_of_mem _ hx) hh)
        rw [ihr, List.append_assoc]
        rfl
      · have h2' : cfTruthy cf = false := by simpa using h2
        rw [parseLoop_cons_other wl l ls ⟨fd, cf, cur⟩ h' h2']
        have ihr := ih fd cf cur
          (fun x hx hh => hwf x (List.mem_cons_of_mem _ hx) hh)
        rw [ihr]
        congr 2
        exact savePrev_falsy wl fd cf _ _ h2'

theorem strStarts_data (l p : String) (h : strStarts l p = true) :
    ∃ t, l.data = p.data ++ t := by
  rw [strStarts_iff] at h
  obtain ⟨t, ht⟩ := h
  exact ⟨t, ht.symm⟩

theorem strStarts_ne_head (l p : String) (c : Char) (t : List Char)
    (d : Char) (ps : List Char)
    (hl : l.data = c :: t) (hp : p.data = d :: ps) (h : d ≠ c) :
    strStarts l p = false := by
  rw [strStarts, hl, hp]
  simp [pfxChars, h]

/-- Two prefixes with different first characters cannot both match. -/
theorem strStarts_disjoint (l p q : String) (c d : Char)
    (ts us : List Char)
    (hp : p.data = c :: ts) (hq : q.data = d :: us) (hne : d ≠ c)
    (h : strStarts l p = true) : strStarts l q = false := by
  obtain ⟨t, ht⟩ := strStarts_data l p h
  rw [hp] at ht
  exact strStarts_ne_head l q c (ts ++ t) d us (by simp [ht]) hq hne

theorem lastWith_cons (f : String → Bool) (l : String)
    (rest : List String) :
    lastWith f (l :: rest) =
      match lastWith f rest with
      | some r => some r
      | none => if f l then some l else none := rfl

theorem scanLoop_cons (fp : String) (hrf : Bool) (l : String)
    (rest : List String) (i : Nat) (op : DiffOperation) (nh : String) :
    scanLoop fp hrf (l :: rest) i op nh =
      if strStarts l "new file mode" then
        scanLoop fp hrf rest (i + 1) .ADDED nh
      else if strStarts l "deleted file mode" then
        scanLoop fp hrf rest (i + 1) .DELETED nh
      else if strStarts l "similarity index" && hrf then
        if strContains l "similarity index 100%" then
          scanLoop fp hrf rest (i + 1) .RENAMED nh
        else
          scanLoop fp hrf rest (i + 1) .RENAMED_AND_MODIFIED nh
      else if strStarts l "rename from " then
        scanLoop fp hrf rest (i + 1) op (l ++ " to " ++ fp)
      else if strStarts l "@@" then ⟨op, nh, i⟩
      else scanLoop fp hrf rest (i + 1) op nh := rfl

/-- Characterisation of the scanning loop: on the lines before the
first hunk marker, the *last* operation-signal line decides the
operation, the *last* `"rename from "` line decides the note, and
the *first* `"@@"` line (if any) decides the content start index. -/
theorem scanLoop_char (fp : String) (hrf : Bool) (lines : List String)
    (i : Nat) (op : DiffOperation) (nh : String) :
    scanLoop fp hrf lines i op nh =
      ⟨(match lastWith (isOpSignal hrf) (preHunk lines) with
        | some l => sigOp l
        | none => op),
       (match lastWith isRenameFromLine (preHunk lines) with
        | some l => l ++ " to " ++ fp
        | none => nh),
       (if lines.any isHunkLine then i + lines.findIdx isHunkLine
        else 0)⟩ := by
  induction lines generalizing i op nh with
  | nil => simp [scanLoop, preHunk, lastWith]
  | cons l rest ih =>
    rw [scanLoop_cons]
    by_cases hA : strStarts l "new file mode" = true
    · have hHunk : isHunkLine l = false :=
        strStarts_disjoint l _ "@@" 'n' '@' _ _ rfl rfl (by decide) hA
      have hRF : isRenameFromLine l = false :=
        strStarts_disjoint l _ "rename from " 'n' 'r' _ _ rfl rfl
          (by decide) hA
      have hSig : isOpSignal hrf l = true := by simp [isOpSignal, hA]
      have hpre : preHunk (l :: rest) = l :: preHunk rest := by
        simp [preHunk, List.takeWhile_cons, hHunk]
      rw [if_pos hA, ih, hpre, lastWith_cons, lastWith_cons]
      simp only [ScanResult.mk.injEq]
      refine ⟨?_, ?_, ?_⟩
      · cases hlw : lastWith (isOpSignal hrf) (preHunk rest) <;>
          simp [hSig, sigOp, hA]
      · cases hlw2 : lastWith isRenameFromLine (preHunk rest) <;>
          simp [hRF]
      · simp only [List.any_cons, hHunk, Bool.false_or,
          List.findIdx_cons, cond_false]
        by_cases hany : rest.any isHunkLine = true
        · simp only [hany, if_true]
          omega
        · simp [hany]
    · by_cases hB : strStarts l "deleted file mode" = true
      · have hHunk : isHunkLine l = false :=
          strStarts_disjoint l _ "@@" 'd' '@' _ _ rfl rfl (by decide) hB
        have hRF : isRenameFromLine l = false :=
          strStarts_disjoint l _ "rename from " 'd' 'r' _ _ rfl rfl
            (by decide) hB
        have hSig : isOpSignal hrf l = true := by simp [isOpSignal, hB]
        have hpre : preHunk (l :: rest) = l :: preHunk rest := by
          simp [preHunk, List.takeWhile_cons, hHunk]
        rw [if_neg hA, if_pos hB, ih, hpre, lastWith_cons, lastWith_cons]
        simp only [ScanResult.mk.injEq]
        refine ⟨?_, ?_, ?_⟩
        · have hA' : strStarts l "new file mode" = false := by
            simpa using hA
          cases hlw : lastWith (isOpSignal hrf) (preHunk rest) <;>
            simp [hSig, sigOp, hA', hB]
        · cases hlw2 : lastWith isRenameFromLine (preHunk rest) <;>
            simp [hRF]
        · simp only [List.any_cons, hHunk, Bool.false_or,
            List.findIdx_cons, cond_false]
          by_cases hany : rest.any isHunkLine = true
          · simp only [hany, if_true]
            omega
          · simp [hany]
      · by_cases hC : (strStarts l "similarity index" && hrf) = true
        · have hsim : strStarts l "similarity index" = true := by
            have := hC
            simp only [Bool.and_eq_true] at this
            exact this.1
          have hHunk : isHunkLine l = false :=
            strStarts_disjoint l _ "@@" 's' '@' _ _ rfl rfl (by decide)
              hsim
          have hRF : isRenameFromLine l = false :=
            strStarts_disjoint l _ "rename from " 's' 'r' _ _ rfl rfl
              (by decide) hsim
          have hSig : isOpSignal hrf l = true := by
            simp [isOpSignal, hC]
          have hpre : preHunk (l :: rest) = l :: preHunk rest := by
            simp [preHunk, List.takeWhile_cons, hHunk]
          have hA' : strStarts l "new file mode" = false := by simpa using hA
          have hB' : strStarts l "deleted file mode" = false := by
            simpa using hB
          rw [if_neg hA, if_neg hB, if_pos hC]
          by_cases h100 : strContains l "similarity index 100%" = true
          · rw [if_pos h100, ih, hpre, lastWith_cons, lastWith_cons]
            simp only [ScanResult.mk.injEq]
            refine ⟨?_, ?_, ?_⟩
            · cases hlw : lastWith (isOpSignal hrf) (preHunk rest) <;>
                simp [hSig, sigOp, hA', hB', h100]
            · cases hlw2 : lastWith isRenameFromLine (preHunk rest) <;>
                simp [hRF]
            · simp only [List.any_cons, hHunk, Bool.false_or,
                List.findIdx_cons, cond_false]
              by_cases hany : rest.any isHunkLine = true
              · simp only [hany, if_true]
                omega
              · simp [hany]
          · have h100' : strContains l "similarity index 100%" = false := by
              simpa using h100
            rw [if_neg h100, ih, hpre, lastWith_cons, lastWith_cons]
            simp only [ScanResult.mk.injEq]
            refine ⟨?_, ?_, ?_⟩
            · cases hlw : lastWith (isOpSignal hrf) (preHunk rest) <;>
                simp [hSig, sigOp, hA', hB', h100']
            · cases hlw2 : lastWith isRenameFromLine (preHunk rest) <;>
                simp [hRF]
            · simp only [List.any_cons, hHunk, Bool.false_or,
                List.findIdx_cons, cond_false]
              by_cases hany : rest.any isHunkLine = true
              · simp only [hany, if_true]
                omega
              · simp [hany]
        · by_cases hD : strStarts l "rename from " = true
          · have hHunk : isHunkLine l = false :=
              strStarts_disjoint l _ "@@" 'r' '@' _ _ rfl rfl (by decide)
                hD
            have hRF : isRenameFromLine l = true := hD
            have hSig : isOpSignal hrf l = false := by
              have h1 : strStarts l "new file mode" = false :=
                strStarts_disjoint l _ "new file mode" 'r' 'n' _ _ rfl rfl
                  (by decide) hD
              have h2 : strStarts l "deleted file mode" = false :=
                strStarts_disjoint l _ "deleted file mode" 'r' 'd' _ _ rfl
                  rfl (by decide) hD
              have h3 : strStarts l "similarity index" = false :=
                strStarts_disjoint l _ "similarity index" 'r' 's' _ _ rfl
                  rfl (by decide) hD
              simp [isOpSignal, h1, h2, h3]
            have hpre : preHunk (l :: rest) = l :: preHunk rest := by
              simp [preHunk, List.takeWhile_cons, hHunk]
            rw [if_neg hA, if_neg hB, if_neg hC, if_pos hD, ih, hpre,
              lastWith_cons, lastWith_cons]
            simp only [ScanResult.mk.injEq]
            refine ⟨?_, ?_, ?_⟩
            · cases hlw : lastWith (isOpSignal hrf) (preHunk rest) <;>
                simp [hSig]
            · cases hlw2 : lastWith isRenameFromLine (preHunk rest) <;>
                simp [hRF]
            · simp only [List.any_cons, hHunk, Bool.false_or,
                List.findIdx_cons, cond_false]
              by_cases hany : rest.any isHunkLine = true
              · simp only [hany, if_true]
                omega
              · simp [hany]
          · by_cases hE : strStarts l "@@" = true
            · have hHunk : isHunkLine l = true := hE
              have hpre : preHunk (l :: rest) = [] := by
                simp [preHunk, List.takeWhile_cons, hHunk]
              rw [if_neg hA, if_neg hB, if_neg hC, if_neg hD, if_pos hE,
                hpre]
              simp [lastWith, List.any_cons, hHunk, List.findIdx_cons]
            · have hHunk : isHunkLine l = false := by
                simpa [isHunkLine] using hE
              have hRF : isRenameFromLine l = false := by
                simpa [isRenameFromLine] using hD
              have hSig : isOpSignal hrf l = false := by
                have hA' : strStarts l "new file mode" = false := by
                  simpa using hA
                have hB' : strStarts l "deleted file mode" = false := by
                  simpa using hB
                have hC' : (strStarts l "similarity index" && hrf) = false :=
                  by simpa using hC
                simp [isOpSignal, hA', hB', hC']
              have hpre : preHunk (l :: rest) = l :: preHunk rest := by
                simp [preHunk, List.takeWhile_cons, hHunk]
              rw [if_neg hA, if_neg hB, if_neg hC, if_neg hD, if_neg hE,
                ih, hpre, lastWith_cons, lastWith_cons]
              simp only [ScanResult.mk.injEq]
              refine ⟨?_, ?_, ?_⟩
              · cases hlw : lastWith (isOpSignal hrf) (preHunk rest) <;>
                  simp [hSig]
              · cases hlw2 : lastWith isRenameFromLine (preHunk rest) <;>
                  simp [hRF]
              · simp only [List.any_cons, hHunk, Bool.false_or,
                  List.findIdx_cons, cond_false]
                by_cases hany : rest.any isHunkLine = true
                · simp only [hany, if_true]
                  omega
                · simp [hany]

theorem dictLookup_nil (k : String) : dictLookup [] k = none := rfl

theorem dictLookup_cons (a b : String) (rest : List (String × String))
    (k : String) :
    dictLookup ((a, b) :: rest) k =
      if a = k then some b else dictLookup rest k := rfl

theorem dictLookup_map_replace (d : List (String × String)) (k v : String)
    (h : d.any (fun kv => kv.1 = k) = true) :
    dictLookup (d.map (fun kv => if kv.1 = k then (k, v) else kv)) k =
      some v := by
  induction d with
  | nil => simp at h
  | cons kv rest ih =>
    obtain ⟨a, b⟩ := kv
    by_cases hk : a = k
    · subst hk
      simp [dictLookup_cons]
    · have h' : rest.any (fun kv => kv.1 = k) = true := by
        simpa [hk] using h
      simp only [List.map_cons, if_neg hk, dictLookup_cons, if_neg hk]
      exact ih h'

theorem dictLookup_append_single (d : List (String × String))
    (k v : String) (h : d.any (fun kv => kv.1 = k) = false) :
    dictLookup (d ++ [(k, v)]) k = some v := by
  induction d with
  | nil => simp [dictLookup_cons]
  | cons kv rest ih =>
    obtain ⟨a, b⟩ := kv
    have hk : ¬(a = k) := by
      intro he
      simp [he] at h
    have h' : rest.any (fun kv => kv.1 = k) = false := by
      simpa [hk] using h
    rw [List.cons_append, dictLookup_cons, if_neg hk]
    exact ih h'

theorem dictLookup_dictInsert_self (d : List (String × String))
    (k v : String) : dictLookup (dictInsert d k v) k = some v := by
  unfold dictInsert
  by_cases h : d.any (fun kv => kv.1 = k) = true
  · rw [if_pos h]
    exact dictLookup_map_replace d k v h
  · have h' : d.any (fun kv => kv.1 = k) = false := bool_eq_false h
    rw [if_neg (by simp [h'])]
    exact dictLookup_append_single d k v h'

theorem dictLookup_dictInsert_ne (d : List (String × String))
    (k v k' : String) (h : k' ≠ k) :
    dictLookup (dictInsert d k v) k' = dictLookup d k' := by
  have hkk : ¬(k = k') := fun he => h he.symm
  unfold dictInsert
  by_cases hany : d.any (fun kv => kv.1 = k) = true
  · rw [if_pos hany]
    clear hany
    induction d with
    | nil => rfl
    | cons kv rest ih =>
      obtain ⟨a, b⟩ := kv
      simp only [List.map_cons]
      by_cases hk : a = k
      · rw [if_pos hk, dictLookup_cons, dictLookup_cons, if_neg hkk,
          if_neg (hk ▸ hkk)]
        exact ih
      · rw [if_neg hk, dictLookup_cons, dictLookup_cons]
        by_cases hk' : a = k'
        · rw [if_pos hk', if_pos hk']
        · rw [if_neg hk', if_neg hk']
          exact ih
  · rw [if_neg hany]
    clear hany
    induction d with
    | nil => simp [dictLookup_cons, dictLookup_nil, hkk]
    | cons kv rest ih =>
      obtain ⟨a, b⟩ := kv
      rw [List.cons_append, dictLookup_cons, dictLookup_cons]
      by_cases hk' : a = k'
      · rw [if_pos hk', if_pos hk']
      · rw [if_neg hk', if_neg hk']
        exact ih

theorem keysOf_dictInsert (d : List (String × String)) (k v : String) :
    keysOf (dictInsert d k v) =
      if d.any (fun kv => kv.1 = k) = true then keysOf d
      else keysOf d ++ [k] := by
  unfold dictInsert keysOf
  by_cases h : d.any (fun kv => kv.1 = k) = true
  · rw [if_pos h, if_pos h, List.map_map]
    clear h
    induction d with
    | nil => rfl
    | cons kv rest ih =>
      obtain ⟨a, b⟩ := kv
      by_cases hk : a = k
      · simp only [List.map_cons, Function.comp_apply, if_pos hk, ih]
        simp [hk]
      · simp only [List.map_cons, Function.comp_apply, if_neg hk, ih]
  · rw [if_neg h, if_neg h]
    simp

theorem keysOf_dictInsert_nodup (d : List (String × String))
    (k v : String) (h : (keysOf d).Nodup) :
    (keysOf (dictInsert d k v)).Nodup := by
  rw [keysOf_dictInsert]
  by_cases hany : d.any (fun kv => kv.1 = k) = true
  · rw [if_pos hany]
    exact h
  · rw [if_neg hany]
    have hnotin : k ∉ keysOf d := by
      intro hmem
      apply hany
      rw [List.any_eq_true]
      obtain ⟨kv, hkv, hfst⟩ := List.mem_map.mp hmem
      exact ⟨kv, hkv, by simp [hfst]⟩
    simp [List.nodup_append, h, hnotin]

theorem mem_iff_dictLookup (d : List (String × String))
    (h : (keysOf d).Nodup) (k v : String) :
    (k, v) ∈ d ↔ dictLookup d k = some v := by
  induction d with
  | nil => simp [dictLookup_nil]
  | cons kv rest ih =>
    obtain ⟨a, b⟩ := kv
    have h1 : (keysOf rest).Nodup := (List.nodup_cons.mp h).2
    have h2 : a ∉ keysOf rest := by
      have := (List.nodup_cons.mp h).1
      simpa [keysOf] using this
    rw [dictLookup_cons]
    by_cases hk : a = k
    · subst hk
      rw [if_pos rfl]
      constructor
      · intro hmem
        rcases List.mem_cons.mp hmem with he | hm
        · injection he with h1' h2'
          rw [h2']
        · exact absurd (show a ∈ keysOf rest from
            List.mem_map.mpr ⟨(a, v), hm, rfl⟩) h2
      · intro he
        injection he with he'
        exact List.mem_cons.mpr (Or.inl (by rw [he']))
    · rw [if_neg hk, ← ih h1]
      constructor
      · intro hmem
        rcases List.mem_cons.mp hmem with he | hm
        · injection he with h1' h2'
          exact absurd h1'.symm hk
        · exact hm
      · exact fun hm => List.mem_cons.mpr (Or.inr hm)

theorem filter_key_length_one (d : List (String × String))
    (h : (keysOf d).Nodup) (k v : String)
    (hl : dictLookup d k = some v) :
    (d.filter (fun kv => kv.1 = k)).length = 1 := by
  induction d with
  | nil => simp [dictLookup_nil] at hl
  | cons kv rest ih =>
    obtain ⟨a, b⟩ := kv
    have h1 : (keysOf rest).Nodup := (List.nodup_cons.mp h).2
    have h2 : a ∉ keysOf rest := by
      have := (List.nodup_cons.mp h).1
      simpa [keysOf] using this
    rw [dictLookup_cons] at hl
    by_cases hk : a = k
    · have hnone : rest.filter (fun kv => kv.1 = k) = [] := by
        rw [List.filter_eq_nil_iff]
        intro x hx
        simp only [decide_eq_true_eq]
        intro he
        exact h2 (hk ▸ he ▸ show x.1 ∈ keysOf rest from
          List.mem_map.mpr ⟨x, hx, rfl⟩)
      rw [List.filter_cons]
      simp [hk, hnone]
    · rw [List.filter_cons]
      simp only [decide_eq_true_eq, hk, if_false]
      rw [if_neg hk] at hl
      exact ih h1 hl

theorem lastBlockWith_cons (p : String) (b : List String)
    (rest : List (List String)) :
    lastBlockWith p (b :: rest) =
      match lastBlockWith p rest with
      | some r => some r
      | none => if blockPath b = some p then some b else none := rfl

theorem lastBlockWith_mem (p : String) (bs : List (List String))
    (b : List String) (h : lastBlockWith p bs = some b) :
    b ∈ bs ∧ blockPath b = some p := by
  induction bs with
  | nil => simp [lastBlockWith] at h
  | cons b' rest ih =>
    rw [lastBlockWith_cons] at h
    cases hl : lastBlockWith p rest with
    | some r =>
      rw [hl] at h
      injection h with he
      subst he
      obtain ⟨hm, hp⟩ := ih hl
      exact ⟨List.mem_cons_of_mem _ hm, hp⟩
    | none =>
      rw [hl] at h
      by_cases hb : blockPath b' = some p
      · rw [if_pos hb] at h
        injection h with he
        subst he
        exact ⟨List.mem_cons_self _ _, hb⟩
      · rw [if_neg hb] at h
        exact absurd h (by simp)

theorem saveBlock_some (wl : List String) (fd : List (String × String))
    (b : List String) (p : String) (h : blockPath b = some p) :
    saveBlock wl fd b =
      if p ≠ "" ∧ p ∈ wl then dictInsert fd p (joinNl b) else fd := by
  unfold saveBlock
  rw [h]

theorem saveBlock_none (wl : List String) (fd : List (String × String))
    (b : List String) (h : blockPath b = none) :
    saveBlock wl fd b = fd := by
  unfold saveBlock
  rw [h]

theorem segModelLoop_lookup (wl : List String) (bs : List (List String))
    (fd : List (String × String)) (p : String)
    (hp : p ≠ "") (hw : p ∈ wl) :
    dictLookup (segModelLoop wl fd bs) p =
      Option.elim (lastBlockWith p bs) (dictLookup fd p)
        (fun b => some (joinNl b)) := by
  induction bs generalizing fd with
  | nil => rfl
  | cons b rest ih =>
    rw [segModelLoop, ih (saveBlock wl fd b), lastBlockWith_cons]
    cases hl : lastBlockWith p rest with
    | some r => rfl
    | none =>
      show dictLookup (saveBlock wl fd b) p =
        Option.elim (if blockPath b = some p then some b else none)
          (dictLookup fd p) (fun b => some (joinNl b))
      by_cases hb : blockPath b = some p
      · rw [if_pos hb, saveBlock_some wl fd b p hb, if_pos ⟨hp, hw⟩]
        show dictLookup (dictInsert fd p (joinNl b)) p = some (joinNl b)
        exact dictLookup_dictInsert_self fd p (joinNl b)
      · rw [if_neg hb]
        show dictLookup (saveBlock wl fd b) p = dictLookup fd p
        cases hbp : blockPath b with
        | none => rw [saveBlock_none wl fd b hbp]
        | some q =>
          rw [saveBlock_some wl fd b q hbp]
          by_cases hq : q ≠ "" ∧ q ∈ wl
          · rw [if_pos hq]
            have hpq : p ≠ q := fun he => hb (he ▸ hbp)
            exact dictLookup_dictInsert_ne fd q (joinNl b) p hpq
          · rw [if_neg hq]

/-- Saving blocks never touches keys outside the save condition. -/
theorem segModelLoop_lookup_notin (wl : List String)
    (bs : List (List String)) (fd : List (String × String)) (p : String)
    (hp : ¬(p ≠ "" ∧ p ∈ wl)) :
    dictLookup (segModelLoop wl fd bs) p = dictLookup fd p := by
  induction bs generalizing fd with
  | nil => rfl
  | cons b rest ih =>
    rw [segModelLoop, ih (saveBlock wl fd b)]
    cases hbp : blockPath b with
    | none => rw [saveBlock_none wl fd b hbp]
    | some q =>
      rw [saveBlock_some wl fd b q hbp]
      by_cases hq : q ≠ "" ∧ q ∈ wl
      · rw [if_pos hq]
        have hpq : p ≠ q := fun he => hp (he ▸ hq)
        exact dictLookup_dictInsert_ne fd q (joinNl b) p hpq
      · rw [if_neg hq]

theorem segModelLoop_nodup (wl : List String) (bs : List (List String))
    (fd : List (String × String)) (h : (keysOf fd).Nodup) :
    (keysOf (segModelLoop wl fd bs)).Nodup := by
  induction bs generalizing fd with
  | nil => exact h
  | cons b rest ih =>
    rw [segModelLoop]
    apply ih
    cases hbp : blockPath b with
    | none =>
      rw [saveBlock_none wl fd b hbp]
      exact h
    | some q =>
      rw [saveBlock_some wl fd b q hbp]
      by_cases hq : q ≠ "" ∧ q ∈ wl
      · rw [if_pos hq]
        exact keysOf_dictInsert_nodup fd q _ h
      · rw [if_neg hq]
        exact h

theorem mem_takeWhile_pred {p : String → Bool} :
    ∀ {L : List String} {x : String}, x ∈ L.takeWhile p → p x = true := by
  intro L
  induction L with
  | nil => intro x hx; simp at hx
  | cons l ls ih =>
    intro x hx
    rw [List.takeWhile_cons] at hx
    by_cases hl : p l = true
    · rw [if_pos hl] at hx
      rcases List.mem_cons.mp hx with rfl | hm
      · exact hl
      · exact ih hm
    · rw [if_neg (by simpa using bool_eq_false hl)] at hx
      simp at hx

theorem mem_takeWhile_mem {p : String → Bool} {L : List String}
    {x : String} (h : x ∈ L.takeWhile p) : x ∈ L :=
  (List.takeWhile_sublist p).subset h

theorem mem_dropWhile_mem {p : String → Bool} {L : List String}
    {x : String} (h : x ∈ L.dropWhile p) : x ∈ L :=
  (List.dropWhile_sublist p).subset h

/-- Every block produced by `blocksOf` starts with a header line,
continues with non-header lines, and consists of input lines. -/
theorem blocksOf_shape : ∀ (n : Nat) (lines : List String),
    lines.length ≤ n → ∀ b ∈ blocksOf lines,
    ∃ hd rest, b = hd :: rest ∧ isHeaderLine hd = true ∧
      (∀ x ∈ rest, isHeaderLine x = false) ∧ (∀ x ∈ b, x ∈ lines) := by
  intro n
  induction n with
  | zero =>
    intro lines hl b hb
    rw [List.length_eq_zero.mp (Nat.le_zero.mp hl)] at hb
    rw [blocksOf_nil] at hb
    simp at hb
  | succ n ihn =>
    intro lines hl b hb
    cases lines with
    | nil =>
      rw [blocksOf_nil] at hb
      simp at hb
    | cons l ls =>
      have hls : ls.length ≤ n := Nat.le_of_succ_le_succ hl
      by_cases h : isHeaderLine l = true
      · rw [blocksOf_cons_header l ls h] at hb
        rcases List.mem_cons.mp hb with rfl | hm
        · refine ⟨l, ls.takeWhile (fun x => !(isHeaderLine x)), rfl, h,
            ?_, ?_⟩
          · intro x hx
            have := mem_takeWhile_pred hx
            simpa using this
          · intro x hx
            rcases List.mem_cons.mp hx with rfl | hx2
            · exact List.mem_cons_self _ _
            · exact List.mem_cons_of_mem _ (mem_takeWhile_mem hx2)
        · obtain ⟨hd, rest, he, hhd, hrest, hmem⟩ := ihn
            (ls.dropWhile (fun x => !(isHeaderLine x)))
            (Nat.le_trans (List.dropWhile_sublist _).length_le hls) b hm
          exact ⟨hd, rest, he, hhd, hrest,
            fun x hx => List.mem_cons_of_mem _
              (mem_dropWhile_mem (hmem x hx))⟩
      · rw [blocksOf_cons_other l ls (bool_eq_false h)] at hb
        obtain ⟨hd, rest, he, hhd, hrest, hmem⟩ := ihn ls hls b hb
        exact ⟨hd, rest, he, hhd, hrest,
          fun x hx => List.mem_cons_of_mem _ (hmem x hx)⟩

/-- Two incomparable prefixes cannot both match the same string. -/
theorem strStarts_incomparable (l p q : String)
    (h : strStarts l p = true)
    (hpq : ¬(q.data <+: p.data)) (hqp : ¬(p.data <+: q.data)) :
    strStarts l q = false := by
  rw [strStarts_iff] at h
  by_contra hcon
  have h2 : strStarts l q = true := by simpa using hcon
  rw [strStarts_iff] at h2
  rcases List.prefix_or_prefix_of_prefix h2 h with hc | hc
  · exact hpq hc
  · exact hqp hc

theorem strStarts_trans (s p q : String) (h : strStarts s p = true)
    (h2 : q.data <+: p.data) : strStarts s q = true := by
  rw [strStarts_iff] at h ⊢
  exact h2.trans h

/-- A member line is an infix of the newline-joined text. -/
theorem mem_joinNl_part (L : List String) (l : String) (h : l ∈ L) :
    l.data <:+: (joinNl L).data := by
  induction L with
  | nil => simp at h
  | cons s rest ih =>
    rcases List.mem_cons.mp h with rfl | hm
    · cases rest with
      | nil => exact List.infix_rfl
      | cons t us =>
        rw [joinNl_cons, String.data_append, String.data_append]
        exact List.IsPrefix.isInfix
          (List.IsPrefix.trans ( List.prefix_append _ _)
            ( List.prefix_append _ _))
    · cases rest with
      | nil => simp at hm
      | cons t us =>
        rw [joinNl_cons, String.data_append, String.data_append]
        rw [List.append_assoc]
        exact (ih hm).trans
          ( List.IsSuffix.isInfix
            ((List.suffix_append _ _).trans (List.suffix_append _ _)))

theorem clean_diff_content_char (fp fd : String) :
    clean_diff_content fp fd =
      if opChar fd = .RENAMED then ⟨fp, opChar fd, nhChar fp fd⟩
      else ⟨fp, opChar fd,
        extract_diff_content (splitOnNl fd) (csiChar fd) (nhChar fp fd)⟩ := by
  simp only [clean_diff_content]
  rw [scanLoop_char]
  simp only [Nat.zero_add]
  rfl

/-- Well-formed headers make the whole parse succeed with the
declarative segment model as result. -/
theorem parse_char (diff : String) (wl : List String)
    (hwf : ∀ l ∈ splitOnNl diff, isHeaderLine l = true →
      ∃ p, extract_file_path_from_diff_header l = .ok p) :
    parse_diff_by_files diff wl = .ok (segModel wl (splitOnNl diff)) := by
  rw [parse_eq_step, parseLoop_segModel wl _ [] none [] hwf]
  rfl

theorem segModel_nodup (wl : List String) (lines : List String) :
    (keysOf (segModel wl lines)).Nodup :=
  segModelLoop_nodup wl (blocksOf lines) [] (by simp [keysOf])

/-- Full membership characterisation of the segment model: the
entries are exactly the nonempty whitelisted paths among the block
headers, with the last matching block as value. -/
theorem segModel_mem_iff (wl : List String) (lines : List String)
    (p v : String) :
    (p, v) ∈ segModel wl lines ↔
      p ∈ wl ∧ p ≠ "" ∧ ∃ b, lastBlockWith p (blocksOf lines) = some b ∧
        v = joinNl b := by
  rw [mem_iff_dictLookup _ (segModel_nodup wl lines)]
  by_cases hcond : p ≠ "" ∧ p ∈ wl
  · rw [segModel, segModelLoop_lookup wl _ [] p hcond.1 hcond.2]
    cases hl : lastBlockWith p (blocksOf lines) with
    | some b =>
      simp only [Option.elim_some, Option.some.injEq]
      constructor
      · intro he
        exact ⟨hcond.2, hcond.1, b, rfl, he.symm⟩
      · rintro ⟨_, _, b', hb', he⟩
        rw [hb', he]
    | none =>
      simp only [Option.elim_none, dictLookup_nil]
      constructor
      · intro he
        exact absurd he (by simp)
      · rintro ⟨_, _, b', hb', _⟩
        exact absurd hb' (by simp)
  · rw [segModel, segModelLoop_lookup_notin wl _ [] p hcond]
    rw [dictLookup_nil]
    constructor
    · intro he
      exact absurd he (by simp)
    · rintro ⟨hw, hp, _⟩
      exact absurd ⟨hp, hw⟩ hcond

theorem headerErr_headerLine (l : String) : (headerErr l).headerLine = l := by
  unfold headerErr
  by_cases h : (pySplit l).length < 4
  · rw [if_pos h]
    rfl
  · rw [if_neg h]
    rfl

theorem extract_ok_iff (l : String) :
    (∃ p, extract_file_path_from_diff_header l = .ok p) ↔
      wellFormedHeader l = true := by
  unfold extract_file_path_from_diff_header wellFormedHeader
  by_cases h4 : (pySplit l).length < 4
  · rw [if_pos h4]
    simp only [Bool.and_eq_true, decide_eq_true_eq]
    constructor
    · rintro ⟨p, hp⟩
      exact absurd hp (by simp)
    · rintro ⟨hle, _⟩
      omega
  · rw [if_neg h4]
    by_cases hb : strStarts (fourthToken l) "b/" = true
    · rw [if_neg (by simp [hb])]
      simp only [Bool.and_eq_true, decide_eq_true_eq]
      exact ⟨fun _ => ⟨by omega, hb⟩, fun _ => ⟨_, rfl⟩⟩
    · rw [if_pos (by simp [bool_eq_false hb])]
      simp only [Bool.and_eq_true, decide_eq_true_eq]
      constructor
      · rintro ⟨p, hp⟩
        exact absurd hp (by simp)
      · rintro ⟨_, hb'⟩
        exact absurd hb' hb

theorem extract_err_of_malformed (l : String)
    (h : wellFormedHeader l = false) :
    extract_file_path_from_diff_header l = .error (headerErr l) := by
  unfold extract_file_path_from_diff_header headerErr
  by_cases h4 : (pySplit l).length < 4
  · rw [if_pos h4, if_pos h4]
  · rw [if_neg h4, if_neg h4]
    have hb : strStarts (fourthToken l) "b/" = false := by
      unfold wellFormedHeader at h
      rcases Bool.and_eq_false_iff.mp h with h' | h'
      · exact absurd (by omega : 4 ≤ (pySplit l).length)
          (by simpa using h')
      · exact h'
    rw [if_pos (by simp [hb])]

theorem find?_cons_true {p : String → Bool} {a : String}
    {l : List String} (h : p a = true) : (a :: l).find? p = some a := by
  simp [List.find?, h]

theorem find?_cons_false {p : String → Bool} {a : String}
    {l : List String} (h : p a = false) : (a :: l).find? p = l.find? p := by
  simp [List.find?, h]

/-- The parse loop fails with the error of the first malformed
header line, regardless of the starting state. -/
theorem parseLoop_error_of_find (wl : List String)
    (lines : List String) (l0 : String)
    (hf : lines.find?
      (fun l => isHeaderLine l && !(wellFormedHeader l)) = some l0) :
    ∀ st, parseLoop wl lines st = .error (headerErr l0) := by
  induction lines with
  | nil => simp at hf
  | cons l ls ih =>
    intro st
    by_cases hpred : (isHeaderLine l && !(wellFormedHeader l)) = true
    · rw [find?_cons_true hpred] at hf
      injection hf with he
      subst he
      have hh : strStarts l "diff --git" = true := by
        have := hpred
        simp only [Bool.and_eq_true] at this
        exact this.1
      have hwf : wellFormedHeader l = false := by
        have := hpred
        simp only [Bool.and_eq_true, Bool.not_eq_true'] at this
        exact this.2
      exact parseLoop_cons_header_err wl l ls st _ hh
        (extract_err_of_malformed l hwf)
    · rw [find?_cons_false (bool_eq_false hpred)] at hf
      by_cases hh : strStarts l "diff --git" = true
      · have hwf : wellFormedHeader l = true := by
          by_contra hcon
          apply hpred
          simp [isHeaderLine, hh, bool_eq_false hcon]
        obtain ⟨p, hp⟩ := (extract_ok_iff l).mpr hwf
        rw [parseLoop_cons_header_ok wl l ls st p hh hp]
        exact ih hf _
      · have hh' : strStarts l "diff --git" = false := bool_eq_false hh
        by_cases h2 : cfTruthy st.current_file = true
        · rw [parseLoop_cons_truthy wl l ls st hh' h2]
          exact ih hf _
        · rw [parseLoop_cons_other wl l ls st hh' (bool_eq_false h2)]
          exact ih hf _

theorem parse_error_of_find (diff : String) (wl : List String)
    (l0 : String)
    (hf : (splitOnNl diff).find?
      (fun l => isHeaderLine l && !(wellFormedHeader l)) = some l0) :
    parse_diff_by_files diff wl = .error (headerErr l0) := by
  rw [parse_eq_step, parseLoop_error_of_find wl _ l0 hf]
  rfl

/-- Processing non-header lines leaves the dict and the current file
unchanged, only (possibly) extending the accumulated lines. -/
theorem parseLoop_skip_nonheaders (wl : List String)
    (body : List String) (rest : List String)
    (fd : List (String × String)) (cf : Option String)
    (cur : List String) (h : ∀ l ∈ body, isHeaderLine l = false) :
    ∃ cur', parseLoop wl (body ++ rest) ⟨fd, cf, cur⟩ =
      parseLoop wl rest ⟨fd, cf, cur'⟩ := by
  induction body generalizing cur with
  | nil => exact ⟨cur, rfl⟩
  | cons l ls ih =>
    have hl : strStarts l "diff --git" = false :=
      h l (List.mem_cons_self _ _)
    rw [List.cons_append]
    by_cases h2 : cfTruthy cf = true
    · rw [parseLoop_cons_truthy wl l _ ⟨fd, cf, cur⟩ hl h2]
      exact ih (cur ++ [l]) (fun x hx => h x (List.mem_cons_of_mem _ hx))
    · rw [parseLoop_cons_other wl l _ ⟨fd, cf, cur⟩ hl (bool_eq_false h2)]
      exact ih cur (fun x hx => h x (List.mem_cons_of_mem _ hx))

theorem listLast_ne_nil {α : Type} (l : List α) (h : l ≠ []) :
    ∃ a, listLast l = some a := by
  cases l with
  | nil => exact absurd rfl h
  | cons a rest =>
    show ∃ x, (match listLast rest with
      | some r => some r
      | none => some a) = some x
    cases listLast rest with
    | some r => exact ⟨r, rfl⟩
    | none => exact ⟨a, rfl⟩

theorem lastBlockWith_eq_listLast (p : String) (bs : List (List String)) :
    lastBlockWith p bs =
      listLast (bs.filter (fun b => blockPath b = some p)) := by
  induction bs with
  | nil => rfl
  | cons b rest ih =>
    rw [lastBlockWith_cons, ih, List.filter_cons]
    by_cases hb : blockPath b = some p
    · rw [if_pos (by simp [hb])]
      cases hg : listLast (rest.filter (fun b => blockPath b = some p)) <;>
        simp [listLast, hg, hb]
    · rw [if_neg (by simp [hb])]
      cases hg : listLast (rest.filter (fun b => blockPath b = some p)) <;>
        simp [hg, hb]

theorem lastWith_mem (f : String → Bool) (L : List String) (l : String)
    (h : lastWith f L = some l) : l ∈ L ∧ f l = true := by
  induction L with
  | nil => simp [lastWith] at h
  | cons x rest ih =>
    rw [lastWith_cons] at h
    cases hl : lastWith f rest with
    | some r =>
      rw [hl] at h
      injection h with he
      subst he
      obtain ⟨hm, hf⟩ := ih hl
      exact ⟨List.mem_cons_of_mem _ hm, hf⟩
    | none =>
      rw [hl] at h
      by_cases hx : f x = true
      · rw [if_pos hx] at h
        injection h with he
        subst he
        exact ⟨List.mem_cons_self _ _, hx⟩
      · rw [if_neg hx] at h
        exact absurd h (by simp)

theorem lastWith_none (f : String → Bool) (L : List String)
    (h : ∀ l ∈ L, f l = false) : lastWith f L = none := by
  induction L with
  | nil => rfl
  | cons x rest ih =>
    rw [lastWith_cons, ih (fun l hl => h l (List.mem_cons_of_mem _ hl))]
    show (if f x = true then some x else none) = none
    have hx : f x = false := h x (List.mem_cons_self _ _)
    rw [if_neg (by simp [hx])]

theorem find?_some_of_mem {p : String → Bool} {L : List String}
    (x : String) (hx : x ∈ L) (hpx : p x = true) :
    ∃ y, L.find? p = some y := by
  induction L with
  | nil => simp at hx
  | cons a rest ih =>
    by_cases ha : p a = true
    · exact ⟨a, find?_cons_true ha⟩
    · rw [find?_cons_false (bool_eq_false ha)]
      rcases List.mem_cons.mp hx with rfl | hm
      · exact absurd hpx ha
      · exact ih hm

/-- If the parse succeeds, every header line was well formed. -/
theorem parse_ok_headers_wf (diff : String) (wl : List String)
    (m : List (String × String))
    (h : parse_diff_by_files diff wl = .ok m) :
    ∀ l ∈ splitOnNl diff, isHeaderLine l = true →
      wellFormedHeader l = true := by
  intro l hl hh
  by_contra hcon
  obtain ⟨l0, hf⟩ := @find?_some_of_mem
    (fun l => isHeaderLine l && !(wellFormedHeader l)) (splitOnNl diff)
    l hl (by simp [hh, bool_eq_false hcon])
  rw [parse_error_of_find diff wl l0 hf] at h
  exact absurd h (by simp)

theorem extract_diff_content_eq (lines : List String)
    (csi : Nat) (nh : String) :
    extract_diff_content lines csi nh =
      if lines.length ≤ csi then ""
      else joinNl (if nh ≠ "" then nh :: lines.drop csi
                   else lines.drop csi) := rfl

/-- The operation of the record is always the characterised one. -/
theorem clean_op (p d : String) :
    (clean_diff_content p d).operation_type = opChar d := by
  rw [clean_diff_content_char]
  split
  · rfl
  · rfl

theorem clean_path (p d : String) : (clean_diff_content p d).path = p := by
  rw [clean_diff_content_char]
  split
  · rfl
  · rfl

/-- C1, counterexample.  The binary-diff block
`"diff --git a/image.png b/image.png\nGIT binary patch"` has no
`"@@"` line and is classified `Modified`, yet its content is the
whole block rather than the empty string claimed by the spec. -/
theorem c1_counterexample :
    (∀ l ∈ splitOnNl "diff --git a/image.png b/image.png\nGIT binary patch",
      isHunkLine l = false) ∧
    (clean_diff_content "image.png"
        "diff --git a/image.png b/image.png\nGIT binary patch").operation_type
      = .MODIFIED ∧
    (clean_diff_content "image.png"
        "diff --git a/image.png b/image.png\nGIT binary patch").content
      = "diff --git a/image.png b/image.png\nGIT binary patch" ∧
    (clean_diff_content "image.png"
        "diff --git a/image.png b/image.png\nGIT binary patch").content
      ≠ "" := by
  refine ⟨by decide, by decide, by decide, by decide⟩

/-- C1, amended.  When the raw block contains no `"@@"` line and the
resolved operation is not `Renamed`, the content is the *entire*
block, with the rename note prepended when one was captured — it is
the empty string only when the block itself is empty and no note was
captured. -/
theorem c1_no_hunk_content (p d : String)
    (hno : ∀ l ∈ splitOnNl d, isHunkLine l = false)
    (hop : (clean_diff_content p d).operation_type ≠ .RENAMED) :
    (clean_diff_content p d).content =
      if nhChar p d = "" then d else nhChar p d ++ "\n" ++ d := by
  have hopc : opChar d ≠ .RENAMED := by
    rw [← clean_op p d]
    exact hop
  rw [clean_diff_content_char, if_neg hopc]
  show extract_diff_content (splitOnNl d) (csiChar d) (nhChar p d) = _
  have hany : (splitOnNl d).any isHunkLine = false := by
    rw [List.any_eq_false]
    intro x hx
    simp [hno x hx]
  have hcsi : csiChar d = 0 := by
    unfold csiChar firstHunkIdx
    rw [if_neg (by simp [hany])]
  rw [hcsi, extract_diff_content_eq]
  have hne : splitOnNl d ≠ [] := splitNlChars_ne_nil d.data
  rw [if_neg (fun hle => hne (List.length_eq_zero.mp (Nat.le_zero.mp hle)))]
  rw [List.drop_zero]
  by_cases hnh : nhChar p d = ""
  · rw [if_neg (fun hcon => hcon hnh), if_pos hnh]
    exact joinNl_splitOnNl d
  · rw [if_pos hnh, if_neg hnh]
    cases hsp : splitOnNl d with
    | nil => exact absurd hsp hne
    | cons x rest =>
      rw [joinNl_cons, ← hsp, joinNl_splitOnNl d]

theorem opChar_none (b : String)
    (h : lastWith (isOpSignal (blockHrf b)) (preHunk (splitOnNl b)) = none) :
    opChar b = .MODIFIED := by
  unfold opChar
  rw [h]

theorem opChar_some (b : String) (l : String)
    (h : lastWith (isOpSignal (blockHrf b)) (preHunk (splitOnNl b))
      = some l) : opChar b = sigOp l := by
  unfold opChar
  rw [h]

/-- Case analysis of `sigOp` on an operation-signal line: the rename
operations arise exactly from similarity-index lines, by the
substring test for `"similarity index 100%"`. -/
theorem sigOp_rename_iff (hrf : Bool) (l : String)
    (hsig : isOpSignal hrf l = true) :
    (sigOp l = .RENAMED ↔
      strStarts l "similarity index" = true ∧
        strContains l "similarity index 100%" = true) ∧
    (sigOp l = .RENAMED_AND_MODIFIED ↔
      strStarts l "similarity index" = true ∧
        strContains l "similarity index 100%" = false) := by
  by_cases hA : strStarts l "new file mode" = true
  · have hsim : strStarts l "similarity index" = false :=
      strStarts_incomparable l "new file mode" "similarity index" hA
        (by decide) (by decide)
    have hv : sigOp l = .ADDED := by
      unfold sigOp
      rw [if_pos hA]
    rw [hv]
    refine ⟨⟨fun he => absurd he (by decide), fun hc => ?_⟩,
      ⟨fun he => absurd he (by decide), fun hc => ?_⟩⟩
    · rw [hsim] at hc
      exact absurd hc.1 (by decide)
    · rw [hsim] at hc
      exact absurd hc.1 (by decide)
  · by_cases hB : strStarts l "deleted file mode" = true
    · have hsim : strStarts l "similarity index" = false :=
        strStarts_incomparable l "deleted file mode" "similarity index" hB
          (by decide) (by decide)
      have hv : sigOp l = .DELETED := by
        unfold sigOp
        rw [if_neg (by simp [bool_eq_false hA]), if_pos hB]
      rw [hv]
      refine ⟨⟨fun he => absurd he (by decide), fun hc => ?_⟩,
        ⟨fun he => absurd he (by decide), fun hc => ?_⟩⟩
      · rw [hsim] at hc
        exact absurd hc.1 (by decide)
      · rw [hsim] at hc
        exact absurd hc.1 (by decide)
    · have hsim : strStarts l "similarity index" = true := by
        unfold isOpSignal at hsig
        rcases Bool.or_eq_true_iff.mp hsig with h' | h'
        · rcases Bool.or_eq_true_iff.mp h' with h'' | h''
          · exact absurd h'' hA
          · exact absurd h'' hB
        · exact (Bool.and_eq_true_iff.mp h').1
      have hv : sigOp l =
          if strContains l "similarity index 100%" then .RENAMED
          else .RENAMED_AND_MODIFIED := by
        unfold sigOp
        rw [if_neg (by simp [bool_eq_false hA]),
          if_neg (by simp [bool_eq_false hB])]
      rw [hv]
      by_cases h100 : strContains l "similarity index 100%" = true
      · rw [if_pos h100]
        refine ⟨⟨fun _ => ⟨hsim, h100⟩, fun _ => rfl⟩,
          ⟨fun he => absurd he (by decide), fun hc => ?_⟩⟩
        rw [h100] at hc
        exact absurd hc.2 (by decide)
      · have h100' : strContains l "similarity index 100%" = false :=
          bool_eq_false h100
        rw [if_neg h100]
        refine ⟨⟨fun he => absurd he (by decide), fun hc => ?_⟩,
          ⟨fun _ => ⟨hsim, h100'⟩, fun _ => rfl⟩⟩
        rw [h100'] at hc
        exact absurd hc.2 (by decide)

/-- C2, counterexample.  A block with `"similarity index 100%"`,
rename markers *and* a subsequent hunk is still classified
`Renamed` — the presence of a hunk does not demote it to
`RenamedAndModified` as the claim requires. -/
theorem c2_counterexample :
    (clean_diff_content "b"
        (joinNl ["diff --git a/a b/b", "similarity index 100%",
          "rename from a", "rename to b", "@@ -1 +1 @@", "-x",
          "+y"])).operation_type = .RENAMED ∧
    (splitOnNl (joinNl ["diff --git a/a b/b", "similarity index 100%",
      "rename from a", "rename to b", "@@ -1 +1 @@", "-x",
      "+y"])).any isHunkLine = true ∧
    DiffOperation.RENAMED ≠ DiffOperation.RENAMED_AND_MODIFIED := by
  refine ⟨by decide, by decide, by decide⟩

/-- C2, amended.  `Renamed` holds iff the *last* operation-signal
line before the first hunk marker is a similarity-index line
containing the substring `"similarity index 100%"` (with
`"rename from"` occurring in the block, as required for a
similarity line to count as a signal); `RenamedAndModified` holds
iff that last signal line is a similarity-index line *not*
containing the substring.  Hunk presence does not influence the
classification (only lines before the first `"@@"` are inspected),
and the `100%` test is a substring test, not an exact-line test. -/
theorem c2_rename_classification (p b : String) :
    ((clean_diff_content p b).operation_type = .RENAMED ↔
      ∃ l, lastWith (isOpSignal (blockHrf b)) (preHunk (splitOnNl b))
          = some l ∧
        strStarts l "similarity index" = true ∧
        strContains l "similarity index 100%" = true) ∧
    ((clean_diff_content p b).operation_type = .RENAMED_AND_MODIFIED ↔
      ∃ l, lastWith (isOpSignal (blockHrf b)) (preHunk (splitOnNl b))
          = some l ∧
        strStarts l "similarity index" = true ∧
        strContains l "similarity index 100%" = false) := by
  rw [clean_op]
  cases hlw : lastWith (isOpSignal (blockHrf b)) (preHunk (splitOnNl b))
    with
  | none =>
    rw [opChar_none b hlw]
    constructor
    · constructor
      · intro he
        exact absurd he (by decide)
      · rintro ⟨l, hl, _⟩
        exact absurd hl (by simp)
    · constructor
      · intro he
        exact absurd he (by decide)
      · rintro ⟨l, hl, _⟩
        exact absurd hl (by simp)
  | some l =>
    rw [opChar_some b l hlw]
    obtain ⟨hmem, hsig⟩ := lastWith_mem _ _ _ hlw
    obtain ⟨hiff1, hiff2⟩ := sigOp_rename_iff (blockHrf b) l hsig
    constructor
    · constructor
      · intro he
        exact ⟨l, rfl, hiff1.mp he⟩
      · rintro ⟨l', hl', hp1, hp2⟩
        injection hl' with he'
        subst he'
        exact hiff1.mpr ⟨hp1, hp2⟩
    · constructor
      · intro he
        exact ⟨l, rfl, hiff2.mp he⟩
      · rintro ⟨l', hl', hp1, hp2⟩
        injection hl' with he'
        subst he'
        exact hiff2.mpr ⟨hp1, hp2⟩

/-- C3.  The parse fails exactly on malformed headers: if the first
header line with fewer than 4 whitespace tokens or without a `"b/"`
prefix on the 4th token is `l0`, the whole parse aborts with an
error carrying `l0` (no partial result, since the result type is
`Except`); if every header line is well formed, the parse returns a
mapping.  Classification is a total function by construction — it
returns exactly one `DiffFile` — and a block with none of the five
signal markers is classified `Modified`. -/
theorem c3_error_handling (diff : String) (wl : List String) :
    (∀ l0, (splitOnNl diff).find?
        (fun l => isHeaderLine l && !(wellFormedHeader l)) = some l0 →
      parse_diff_by_files diff wl = .error (headerErr l0) ∧
        (headerErr l0).headerLine = l0) ∧
    ((∀ l ∈ splitOnNl diff, isHeaderLine l = true →
        wellFormedHeader l = true) →
      ∃ m, parse_diff_by_files diff wl = .ok m) ∧
    (∀ p b, (∀ l ∈ splitOnNl b, hasSignalMarker l = false) →
      (clean_diff_content p b).operation_type = .MODIFIED) := by
  refine ⟨?_, ?_, ?_⟩
  · intro l0 hf
    exact ⟨parse_error_of_find diff wl l0 hf, headerErr_headerLine l0⟩
  · intro hwf
    exact ⟨segModel wl (splitOnNl diff), parse_char diff wl
      (fun l hl hh => (extract_ok_iff l).mpr (hwf l hl hh))⟩
  · intro p b hsm
    rw [clean_op]
    have hnone : lastWith (isOpSignal (blockHrf b))
        (preHunk (splitOnNl b)) = none := by
      apply lastWith_none
      intro l hl
      have hsm' := hsm l (mem_takeWhile_mem hl)
      unfold hasSignalMarker at hsm'
      simp only [Bool.or_eq_false_iff] at hsm'
      unfold isOpSignal
      rw [hsm'.1.1.1.1, hsm'.1.1.1.2, hsm'.1.1.2]
      rfl
    rw [opChar_none b hnone]

/-- Witness for C3 at concrete inputs: the 3-token header aborts the
parse with an error carrying that header line; a well-formed diff
parses; a signal-free block is `Modified`. -/
theorem c3_witness :
    (parse_diff_by_files "diff --git a/file.py" ["file.py"]
        = .error (headerErr "diff --git a/file.py") ∧
      (headerErr "diff --git a/file.py").headerLine
        = "diff --git a/file.py") ∧
    (∃ m, parse_diff_by_files "diff --git a/x b/y" ["y"] = .ok m) ∧
    (clean_diff_content "f"
      "diff --git a/f b/f\nindex 1..2").operation_type = .MODIFIED :=
  ⟨(c3_error_handling "diff --git a/file.py" ["file.py"]).1
      "diff --git a/file.py" (by decide),
    (c3_error_handling "diff --git a/x b/y" ["y"]).2.1 (by decide),
    (c3_error_handling "x" ["x"]).2.2 "f" "diff --git a/f b/f\nindex 1..2"
      (by decide)⟩

/-- C4, counterexample.  Two *distinct* well-formed header lines with
the same whitelisted destination path `"p"` yield a single entry
(the last block), not one entry per distinct header as claimed. -/
theorem c4_counterexample :
    parse_diff_by_files "diff --git a/x b/p\ndiff --git a/y b/p" ["p"]
      = .ok [("p", "diff --git a/y b/p")] ∧
    splitOnNl "diff --git a/x b/p\ndiff --git a/y b/p"
      = ["diff --git a/x b/p", "diff --git a/y b/p"] ∧
    "diff --git a/x b/p" ≠ "diff --git a/y b/p" ∧
    isHeaderLine "diff --git a/x b/p" = true ∧
    isHeaderLine "diff --git a/y b/p" = true ∧
    extract_file_path_from_diff_header "diff --git a/x b/p" = .ok "p" ∧
    extract_file_path_from_diff_header "diff --git a/y b/p" = .ok "p" := by
  refine ⟨by decide, by decide, by decide, by decide, by decide,
    by decide, by decide⟩

/-- C4, amended.  For a diff whose header lines are all well formed,
the Segmenter succeeds and returns exactly one entry per distinct
*nonempty whitelisted destination path* occurring among the headers
(keys are duplicate-free); the value stored under a path is the
block — header line plus the following lines up to the next header
or end of input, newline-joined — of the *last* header bearing that
path.  Lines before the first header belong to no block, and the
empty diff text yields the empty mapping. -/
theorem c4_segmentation (diff : String) (wl : List String)
    (hwf : ∀ l ∈ splitOnNl diff, isHeaderLine l = true →
      wellFormedHeader l = true) :
    (∃ m, parse_diff_by_files diff wl = .ok m ∧ (keysOf m).Nodup ∧
      ∀ p v, (p, v) ∈ m ↔
        (p ∈ wl ∧ p ≠ "" ∧ ∃ b,
          lastBlockWith p (blocksOf (splitOnNl diff)) = some b ∧
          v = joinNl b)) ∧
    parse_diff_by_files "" wl = .ok [] := by
  constructor
  · exact ⟨segModel wl (splitOnNl diff),
      parse_char diff wl
        (fun l hl hh => (extract_ok_iff l).mpr (hwf l hl hh)),
      segModel_nodup wl _,
      fun p v => segModel_mem_iff wl _ p v⟩
  · rfl

/-- Witness for C4 at a concrete two-file diff. -/
theorem c4_witness :
    (∃ m, parse_diff_by_files "diff --git a/x b/p\nz\ndiff --git a/q b/q"
        ["p", "q"] = .ok m ∧ (keysOf m).Nodup ∧
      ∀ p v, (p, v) ∈ m ↔
        (p ∈ ["p", "q"] ∧ p ≠ "" ∧ ∃ b,
          lastBlockWith p (blocksOf (splitOnNl
            "diff --git a/x b/p\nz\ndiff --git a/q b/q")) = some b ∧
          v = joinNl b)) ∧
    parse_diff_by_files "" ["p", "q"] = .ok [] :=
  c4_segmentation "diff --git a/x b/p\nz\ndiff --git a/q b/q"
    ["p", "q"] (by decide)

/-- Witness for C1 at a concrete binary-style block. -/
theorem c1_witness :
    (clean_diff_content "f.py"
        "diff --git a/f.py b/f.py\nBinary files differ").content =
      (if nhChar "f.py" "diff --git a/f.py b/f.py\nBinary files differ"
          = "" then "diff --git a/f.py b/f.py\nBinary files differ"
       else nhChar "f.py" "diff --git a/f.py b/f.py\nBinary files differ"
          ++ "\n" ++ "diff --git a/f.py b/f.py\nBinary files differ") :=
  c1_no_hunk_content "f.py" "diff --git a/f.py b/f.py\nBinary files differ"
    (by decide) (by decide)

/-- C9.  Whenever the Segmenter succeeds, every key of the returned
mapping is a whitelist member, and the first line of the stored
value is a `"diff --git"` header whose extracted `"b/"`-side path is
exactly that key. -/
theorem c9_keys_invariant (diff : String) (wl : List String)
    (m : List (String × String))
    (hok : parse_diff_by_files diff wl = .ok m) :
    ∀ p v, (p, v) ∈ m → p ∈ wl ∧
      ∃ hd rest, splitOnNl v = hd :: rest ∧ isHeaderLine hd = true ∧
        extract_file_path_from_diff_header hd = .ok p := by
  have hwf := parse_ok_headers_wf diff wl m hok
  have hchar := parse_char diff wl
    (fun l hl hh => (extract_ok_iff l).mpr (hwf l hl hh))
  rw [hchar] at hok
  injection hok with hm
  subst hm
  intro p v hmem
  rw [segModel_mem_iff] at hmem
  obtain ⟨hwl, hne, b, hlast, hv⟩ := hmem
  obtain ⟨hbmem, hbpath⟩ := lastBlockWith_mem _ _ _ hlast
  obtain ⟨hd, rest, hbe, hhd, hrest, hsub⟩ :=
    blocksOf_shape (splitOnNl diff).length (splitOnNl diff)
      (Nat.le_refl _) b hbmem
  have hnl : ∀ x ∈ b, '\n' ∉ x.data := fun x hx =>
    mem_splitNlChars_nlFree diff.data x (hsub x hx)
  have hbne : b ≠ [] := by
    rw [hbe]
    simp
  have hsv : splitOnNl v = b := by
    rw [hv]
    exact splitOnNl_joinNl b hbne hnl
  refine ⟨hwl, hd, rest, by rw [hsv, hbe], hhd, ?_⟩
  rw [hbe] at hbpath
  have hbpath' : (extract_file_path_from_diff_header hd).toOption
      = some p := hbpath
  cases hext : extract_file_path_from_diff_header hd with
  | error e =>
    rw [hext] at hbpath'
    have h2 : (none : Option String) = some p := hbpath'
    exact absurd h2 (by simp)
  | ok q =>
    rw [hext] at hbpath'
    have h2 : some q = some p := hbpath'
    injection h2 with h3
    rw [h3]

/-- Witness for C9 at a concrete parse. -/
theorem c9_witness :
    "f" ∈ ["f"] ∧
    ∃ hd rest, splitOnNl "diff --git a/f b/f\nx" = hd :: rest ∧
      isHeaderLine hd = true ∧
      extract_file_path_from_diff_header hd = .ok "f" :=
  c9_keys_invariant "diff --git a/f b/f\nx" ["f"]
    [("f", "diff --git a/f b/f\nx")] (by decide) "f"
    "diff --git a/f b/f\nx" (by decide)

/-- C10.  If two or more blocks carry headers extracting to the same
whitelisted nonempty path, the mapping holds a single entry for that
path, whose value is the newline-joined block of the *last* such
header — earlier blocks are overwritten, never merged. -/
theorem c10_duplicate_headers (diff : String) (wl : List String)
    (p : String)
    (hwf : ∀ l ∈ splitOnNl diff, isHeaderLine l = true →
      wellFormedHeader l = true)
    (hwl : p ∈ wl) (hne : p ≠ "")
    (hdup : 2 ≤ ((blocksOf (splitOnNl diff)).filter
      (fun b => blockPath b = some p)).length) :
    ∃ m b, parse_diff_by_files diff wl = .ok m ∧
      listLast ((blocksOf (splitOnNl diff)).filter
        (fun b => blockPath b = some p)) = some b ∧
      dictLookup m p = some (joinNl b) ∧
      (m.filter (fun kv => kv.1 = p)).length = 1 := by
  have hchar := parse_char diff wl
    (fun l hl hh => (extract_ok_iff l).mpr (hwf l hl hh))
  have hfne : (blocksOf (splitOnNl diff)).filter
      (fun b => blockPath b = some p) ≠ [] := by
    intro he
    rw [he] at hdup
    simp at hdup
  obtain ⟨b, hb⟩ := listLast_ne_nil _ hfne
  have hlast : lastBlockWith p (blocksOf (splitOnNl diff)) = some b := by
    rw [lastBlockWith_eq_listLast]
    exact hb
  have hlook : dictLookup (segModel wl (splitOnNl diff)) p
      = some (joinNl b) := by
    rw [segModel, segModelLoop_lookup wl _ [] p hne hwl, hlast]
    rfl
  exact ⟨segModel wl (splitOnNl diff), b, hchar, hb, hlook,
    filter_key_length_one _ (segModel_nodup wl _) p _ hlook⟩

/-- Witness for C10 at a concrete duplicate-header diff. -/
theorem c10_witness :
    ∃ m b, parse_diff_by_files
        "diff --git a/x b/p\nA\ndiff --git a/y b/p\nB" ["p"]
      = .ok m ∧
      listLast ((blocksOf (splitOnNl
        "diff --git a/x b/p\nA\ndiff --git a/y b/p\nB")).filter
        (fun b => blockPath b = some "p")) = some b ∧
      dictLookup m "p" = some (joinNl b) ∧
      (m.filter (fun kv => kv.1 = "p")).length = 1 :=
  c10_duplicate_headers "diff --git a/x b/p\nA\ndiff --git a/y b/p\nB"
    ["p"] "p" (by decide) (by decide) (by decide) (by decide)

/-- C8, counterexample.  With two `"rename from "` lines the note is
synthesised from the *second* (last) one, not the first as claimed;
with both `"new file mode"` and `"deleted file mode"` present the
*last* one decides the tentative operation. -/
theorem c8_counterexample :
    clean_diff_content "P" (joinNl ["similarity index 100%",
      "rename from A", "rename from B", "rename to P"])
      = ⟨"P", .RENAMED, "rename from B to P"⟩ ∧
    "rename from B to P" ≠ "rename from A to P" ∧
    (clean_diff_content "f" (joinNl ["new file mode 100644",
      "deleted file mode 100644"])).operation_type = .DELETED ∧
    DiffOperation.DELETED ≠ DiffOperation.ADDED := by
  refine ⟨by decide, by decide, by decide, by decide⟩

/-- C8, amended.  The *last* matching line per signal wins: the
operation is decided by the last operation-signal line before the
first `"@@"` line (`opChar`), the rename note is synthesised from
the last `"rename from "` line before the first `"@@"` line
(`nhChar`), and only the `"@@"` signal is first-match (the scan
breaks at the first hunk line, `csiChar`). -/
theorem c8_last_match_wins (p b : String) :
    (clean_diff_content p b).operation_type = opChar b ∧
    ((clean_diff_content p b).operation_type = .RENAMED →
      (clean_diff_content p b).content = nhChar p b) ∧
    ((clean_diff_content p b).operation_type ≠ .RENAMED →
      (clean_diff_content p b).content =
        extract_diff_content (splitOnNl b) (csiChar b) (nhChar p b)) := by
  refine ⟨clean_op p b, ?_, ?_⟩
  · intro hop
    have hopc : opChar b = .RENAMED := by
      rw [← clean_op p b]
      exact hop
    rw [clean_diff_content_char, if_pos hopc]
  · intro hop
    have hopc : opChar b ≠ .RENAMED := by
      rw [← clean_op p b]
      exact hop
    rw [clean_diff_content_char, if_neg hopc]

/-- Witness for C8 in both the `Renamed` and non-`Renamed` cases. -/
theorem c8_witness :
    (clean_diff_content "P" (joinNl ["similarity index 100%",
        "rename from A", "rename from B", "rename to P"])).content
      = nhChar "P" (joinNl ["similarity index 100%", "rename from A",
        "rename from B", "rename to P"]) ∧
    (clean_diff_content "m" "diff --git a/m b/m\n@@ -1 +1 @@\n-x").content
      = extract_diff_content
          (splitOnNl "diff --git a/m b/m\n@@ -1 +1 @@\n-x")
          (csiChar "diff --git a/m b/m\n@@ -1 +1 @@\n-x")
          (nhChar "m" "diff --git a/m b/m\n@@ -1 +1 @@\n-x") :=
  ⟨(c8_last_match_wins "P" (joinNl ["similarity index 100%",
      "rename from A", "rename from B", "rename to P"])).2.1 (by decide),
    (c8_last_match_wins "m"
      "diff --git a/m b/m\n@@ -1 +1 @@\n-x").2.2 (by decide)⟩

/-- C5.  Round-trip on a pure rename: a block with header,
`"similarity index 100%"`, `"rename from A"` and `"rename to B"`
lines, classified under path `B`, yields operation `Renamed` with
content exactly `"rename from A to B"` (for any newline-free paths
`A` and `B`). -/
theorem c5_pure_rename (A B : String)
    (hA : '\n' ∉ A.data) (hB : '\n' ∉ B.data) :
    clean_diff_content B
      (joinNl ["diff --git a/" ++ (A ++ (" b/" ++ B)),
        "similarity index 100%", "rename from " ++ A,
        "rename to " ++ B]) =
    ⟨B, .RENAMED, "rename from " ++ A ++ " to " ++ B⟩ := by
  set hdr := "diff --git a/" ++ (A ++ (" b/" ++ B)) with hhdr_def
  set rf := "rename from " ++ A with hrf_def
  set rt := "rename to " ++ B with hrt_def
  have hdr0 : strStarts hdr "diff --git a/" = true :=
    strStarts_of_append "diff --git a/" (A ++ (" b/" ++ B))
  have hdrN : strStarts hdr "new file mode" = false :=
    strStarts_incomparable hdr "diff --git a/" "new file mode" hdr0
      (by decide) (by decide)
  have hdrD : strStarts hdr "deleted file mode" = false :=
    strStarts_incomparable hdr "diff --git a/" "deleted file mode" hdr0
      (by decide) (by decide)
  have hdrS : strStarts hdr "similarity index" = false :=
    strStarts_incomparable hdr "diff --git a/" "similarity index" hdr0
      (by decide) (by decide)
  have hdrR : strStarts hdr "rename from " = false :=
    strStarts_incomparable hdr "diff --git a/" "rename from " hdr0
      (by decide) (by decide)
  have hdrH : strStarts hdr "@@" = false :=
    strStarts_incomparable hdr "diff --git a/" "@@" hdr0
      (by decide) (by decide)
  have rf0 : strStarts rf "rename from " = true :=
    strStarts_of_append "rename from " A
  have rfN : strStarts rf "new file mode" = false :=
    strStarts_incomparable rf "rename from " "new file mode" rf0
      (by decide) (by decide)
  have rfD : strStarts rf "deleted file mode" = false :=
    strStarts_incomparable rf "rename from " "deleted file mode" rf0
      (by decide) (by decide)
  have rfS : strStarts rf "similarity index" = false :=
    strStarts_incomparable rf "rename from " "similarity index" rf0
      (by decide) (by decide)
  have rfH : strStarts rf "@@" = false :=
    strStarts_incomparable rf "rename from " "@@" rf0
      (by decide) (by decide)
  have rt0 : strStarts rt "rename to " = true :=
    strStarts_of_append "rename to " B
  have rtN : strStarts rt "new file mode" = false :=
    strStarts_incomparable rt "rename to " "new file mode" rt0
      (by decide) (by decide)
  have rtD : strStarts rt "deleted file mode" = false :=
    strStarts_incomparable rt "rename to " "deleted file mode" rt0
      (by decide) (by decide)
  have rtS : strStarts rt "similarity index" = false :=
    strStarts_incomparable rt "rename to " "similarity index" rt0
      (by decide) (by decide)
  have rtR : strStarts rt "rename from " = false :=
    strStarts_incomparable rt "rename to " "rename from " rt0
      (by decide) (by decide)
  have rtH : strStarts rt "@@" = false :=
    strStarts_incomparable rt "rename to " "@@" rt0
      (by decide) (by decide)
  have simN : strStarts "similarity index 100%" "new file mode" = false :=
    by decide
  have simD : strStarts "similarity index 100%" "deleted file mode"
      = false := by decide
  have simS : strStarts "similarity index 100%" "similarity index"
      = true := by decide
  have simR : strStarts "similarity index 100%" "rename from " = false :=
    by decide
  have simH : strStarts "similarity index 100%" "@@" = false := by decide
  have sim100 : strContains "similarity index 100%"
      "similarity index 100%" = true := by decide
  have hnlhdr : '\n' ∉ hdr.data := by
    rw [hhdr_def]
    intro hmem
    rw [String.data_append, String.data_append, String.data_append]
      at hmem
    rcases List.mem_append.mp hmem with h | h
    · exact absurd h (by decide)
    · rcases List.mem_append.mp h with h | h
      · exact hA h
      · rcases List.mem_append.mp h with h | h
        · exact absurd h (by decide)
        · exact hB h
  have hnlrf : '\n' ∉ rf.data := by
    rw [hrf_def]
    intro hmem
    rw [String.data_append] at hmem
    rcases List.mem_append.mp hmem with h | h
    · exact absurd h (by decide)
    · exact hA h
  have hnlrt : '\n' ∉ rt.data := by
    rw [hrt_def]
    intro hmem
    rw [String.data_append] at hmem
    rcases List.mem_append.mp hmem with h | h
    · exact absurd h (by decide)
    · exact hB h
  have hsplit : splitOnNl (joinNl [hdr, "similarity index 100%", rf, rt])
      = [hdr, "similarity index 100%", rf, rt] := by
    apply splitOnNl_joinNl _ (by simp)
    intro x hx
    rcases List.mem_cons.mp hx with rfl | hx
    · exact hnlhdr
    · rcases List.mem_cons.mp hx with rfl | hx
      · decide
      · rcases List.mem_cons.mp hx with rfl | hx
        · exact hnlrf
        · rcases List.mem_cons.mp hx with rfl | hx
          · exact hnlrt
          · simp at hx
  have hhrf : blockHrf (joinNl [hdr, "similarity index 100%", rf, rt])
      = true := by
    unfold blockHrf strContains
    rw [subChars_iff]
    have hpre : "rename from".data <+: rf.data := by
      rw [hrf_def, String.data_append]
      exact (show "rename from".data <+: "rename from ".data by
        decide).trans ( List.prefix_append _ _)
    exact List.IsInfix.trans ( List.IsPrefix.isInfix hpre)
      (mem_joinNl_part _ rf (by simp))
  have hpreh : preHunk [hdr, "similarity index 100%", rf, rt]
      = [hdr, "similarity index 100%", rf, rt] := by
    simp [preHunk, List.takeWhile_cons, isHunkLine, hdrH, simH, rfH, rtH]
  have hsig_hdr : isOpSignal true hdr = false := by
    simp [isOpSignal, hdrN, hdrD, hdrS]
  have hsig_sim : isOpSignal true "similarity index 100%" = true := by
    simp [isOpSignal, simS]
  have hsig_rf : isOpSignal true rf = false := by
    simp [isOpSignal, rfN, rfD, rfS]
  have hsig_rt : isOpSignal true rt = false := by
    simp [isOpSignal, rtN, rtD, rtS]
  have hop : opChar (joinNl [hdr, "similarity index 100%", rf, rt])
      = .RENAMED := by
    unfold opChar
    rw [hsplit, hhrf, hpreh]
    rw [show lastWith (isOpSignal true) [hdr, "similarity index 100%",
        rf, rt] = some "similarity index 100%" from by
      simp [lastWith, hsig_hdr, hsig_sim, hsig_rf, hsig_rt]]
    show sigOp "similarity index 100%" = .RENAMED
    unfold sigOp
    rw [if_neg (by simp [simN]), if_neg (by simp [simD]),
      if_pos sim100]
  have hnh : nhChar B (joinNl [hdr, "similarity index 100%", rf, rt])
      = rf ++ " to " ++ B := by
    unfold nhChar
    rw [hsplit, hpreh]
    rw [show lastWith isRenameFromLine [hdr, "similarity index 100%",
        rf, rt] = some rf from by
      simp [lastWith, isRenameFromLine, hdrR, simR, rf0, rtR]]
  rw [clean_diff_content_char, hop, if_pos rfl, hnh]

/-- Witness for C5 at concrete paths. -/
theorem c5_witness :
    clean_diff_content "new.py"
      (joinNl ["diff --git a/" ++ ("old.py" ++ (" b/" ++ "new.py")),
        "similarity index 100%", "rename from " ++ "old.py",
        "rename to " ++ "new.py"]) =
    ⟨"new.py", .RENAMED, "rename from " ++ "old.py" ++ " to " ++ "new.py"⟩ :=
  c5_pure_rename "old.py" "new.py" (by decide) (by decide)

/-- C6, counterexample.  The similarity line
`"similarity index 100% (rounded)"` is *not* exactly
`"similarity index 100%"`, yet a block carrying it with rename
markers and a hunk is classified `Renamed` (the code tests for the
substring, which is present) — not `RenamedAndModified` as the claim
requires for any value other than exactly 100%. -/
theorem c6_counterexample :
    "similarity index 100% (rounded)" ≠ "similarity index 100%" ∧
    (clean_diff_content "b" (joinNl ["diff --git a/a b/b",
      "similarity index 100% (rounded)", "rename from a",
      "rename to b", "@@ -1 +1 @@", "-x"])).operation_type
      = .RENAMED ∧
    DiffOperation.RENAMED ≠ DiffOperation.RENAMED_AND_MODIFIED := by
  refine ⟨by decide, by decide, by decide⟩

/-- C6, amended.  For a block with a similarity line *not containing
the substring* `"similarity index 100%"`, a `"rename from X"` line,
a `"rename to Y"` line and a hunk, classified under `Y`: the
operation is `RenamedAndModified` and the content is the line
`"rename from X to Y"` followed by the hunk text (every line from
the first `"@@"` line to the end of the block). -/
theorem c6_renamed_and_modified (s X Y t : String) (rest : List String)
    (hs1 : strStarts s "similarity index" = true)
    (hs2 : strContains s "similarity index 100%" = false)
    (hnS : '\n' ∉ s.data) (hnX : '\n' ∉ X.data) (hnY : '\n' ∉ Y.data)
    (hnT : '\n' ∉ t.data) (hnR : ∀ l ∈ rest, '\n' ∉ l.data) :
    clean_diff_content Y
      (joinNl (["diff --git a/" ++ (X ++ (" b/" ++ Y)), s,
        "rename from " ++ X, "rename to " ++ Y,
        "@@" ++ t] ++ rest)) =
    ⟨Y, .RENAMED_AND_MODIFIED,
      (("rename from " ++ X) ++ " to " ++ Y) ++ "\n" ++
        joinNl (("@@" ++ t) :: rest)⟩ := by
  set hdr := "diff --git a/" ++ (X ++ (" b/" ++ Y)) with hhdr_def
  set rf := "rename from " ++ X with hrf_def
  set rt := "rename to " ++ Y with hrt_def
  set hk := "@@" ++ t with hhk_def
  have hdr0 : strStarts hdr "diff --git a/" = true :=
    strStarts_of_append "diff --git a/" (X ++ (" b/" ++ Y))
  have hdrN : strStarts hdr "new file mode" = false :=
    strStarts_incomparable hdr "diff --git a/" "new file mode" hdr0
      (by decide) (by decide)
  have hdrD : strStarts hdr "deleted file mode" = false :=
    strStarts_incomparable hdr "diff --git a/" "deleted file mode" hdr0
      (by decide) (by decide)
  have hdrS : strStarts hdr "similarity index" = false :=
    strStarts_incomparable hdr "diff --git a/" "similarity index" hdr0
      (by decide) (by decide)
  have hdrR : strStarts hdr "rename from " = false :=
    strStarts_incomparable hdr "diff --git a/" "rename from " hdr0
      (by decide) (by decide)
  have hdrH : strStarts hdr "@@" = false :=
    strStarts_incomparable hdr "diff --git a/" "@@" hdr0
      (by decide) (by decide)
  have sN : strStarts s "new file mode" = false :=
    strStarts_incomparable s "similarity index" "new file mode" hs1
      (by decide) (by decide)
  have sD : strStarts s "deleted file mode" = false :=
    strStarts_incomparable s "similarity index" "deleted file mode" hs1
      (by decide) (by decide)
  have sR : strStarts s "rename from " = false :=
    strStarts_incomparable s "similarity index" "rename from " hs1
      (by decide) (by decide)
  have sH : strStarts s "@@" = false :=
    strStarts_incomparable s "similarity index" "@@" hs1
      (by decide) (by decide)
  have rf0 : strStarts rf "rename from " = true :=
    strStarts_of_append "rename from " X
  have rfN : strStarts rf "new file mode" = false :=
    strStarts_incomparable rf "rename from " "new file mode" rf0
      (by decide) (by decide)
  have rfD : strStarts rf "deleted file mode" = false :=
    strStarts_incomparable rf "rename from " "deleted file mode" rf0
      (by decide) (by decide)
  have rfS : strStarts rf "similarity index" = false :=
    strStarts_incomparable rf "rename from " "similarity index" rf0
      (by decide) (by decide)
  have rfH : strStarts rf "@@" = false :=
    strStarts_incomparable rf "rename from " "@@" rf0
      (by decide) (by decide)
  have rt0 : strStarts rt "rename to " = true :=
    strStarts_of_append "rename to " Y
  have rtN : strStarts rt "new file mode" = false :=
    strStarts_incomparable rt "rename to " "new file mode" rt0
      (by decide) (by decide)
  have rtD : strStarts rt "deleted file mode" = false :=
    strStarts_incomparable rt "rename to " "deleted file mode" rt0
      (by decide) (by decide)
  have rtS : strStarts rt "similarity index" = false :=
    strStarts_incomparable rt "rename to " "similarity index" rt0
      (by decide) (by decide)
  have rtR : strStarts rt "rename from " = false :=
    strStarts_incomparable rt "rename to " "rename from " rt0
      (by decide) (by decide)
  have rtH : strStarts rt "@@" = false :=
    strStarts_incomparable rt "rename to " "@@" rt0
      (by decide) (by decide)
  have hk0 : strStarts hk "@@" = true := strStarts_of_append "@@" t
  have hnlhdr : '\n' ∉ hdr.data := by
    rw [hhdr_def]
    intro hmem
    rw [String.data_append, String.data_append, String.data_append]
      at hmem
    rcases List.mem_append.mp hmem with h | h
    · exact absurd h (by decide)
    · rcases List.mem_append.mp h with h | h
      · exact hnX h
      · rcases List.mem_append.mp h with h | h
        · exact absurd h (by decide)
        · exact hnY h
  have hnlrf : '\n' ∉ rf.data := by
    rw [hrf_def]
    intro hmem
    rw [String.data_append] at hmem
    rcases List.mem_append.mp hmem with h | h
    · exact absurd h (by decide)
    · exact hnX h
  have hnlrt : '\n' ∉ rt.data := by
    rw [hrt_def]
    intro hmem
    rw [String.data_append] at hmem
    rcases List.mem_append.mp hmem with h | h
    · exact absurd h (by decide)
    · exact hnY h
  have hnlhk : '\n' ∉ hk.data := by
    rw [hhk_def]
    intro hmem
    rw [String.data_append] at hmem
    rcases List.mem_append.mp hmem with h | h
    · exact absurd h (by decide)
    · exact hnT h
  have hsplit : splitOnNl (joinNl ([hdr, s, rf, rt, hk] ++ rest))
      = [hdr, s, rf, rt, hk] ++ rest := by
    apply splitOnNl_joinNl _ (by simp)
    intro x hx
    rcases List.mem_append.mp hx with hx | hx
    · rcases List.mem_cons.mp hx with rfl | hx
      · exact hnlhdr
      · rcases List.mem_cons.mp hx with rfl | hx
        · exact hnS
        · rcases List.mem_cons.mp hx with rfl | hx
          · exact hnlrf
          · rcases List.mem_cons.mp hx with rfl | hx
            · exact hnlrt
            · rcases List.mem_cons.mp hx with rfl | hx
              · exact hnlhk
              · simp at hx
    · exact hnR x hx
  have hhrf : blockHrf (joinNl ([hdr, s, rf, rt, hk] ++ rest))
      = true := by
    unfold blockHrf strContains
    rw [subChars_iff]
    have hpre : "rename from".data <+: rf.data := by
      rw [hrf_def, String.data_append]
      exact (show "rename from".data <+: "rename from ".data by
        decide).trans ( List.prefix_append _ _)
    exact List.IsInfix.trans ( List.IsPrefix.isInfix hpre)
      (mem_joinNl_part _ rf (by simp))
  have hpreh : preHunk ([hdr, s, rf, rt, hk] ++ rest)
      = [hdr, s, rf, rt] := by
    simp [preHunk, List.takeWhile_cons, isHunkLine, hdrH, sH, rfH, rtH,
      hk0]
  have hsig_hdr : isOpSignal true hdr = false := by
    simp [isOpSignal, hdrN, hdrD, hdrS]
  have hsig_s : isOpSignal true s = true := by
    simp [isOpSignal, hs1]
  have hsig_rf : isOpSignal true rf = false := by
    simp [isOpSignal, rfN, rfD, rfS]
  have hsig_rt : isOpSignal true rt = false := by
    simp [isOpSignal, rtN, rtD, rtS]
  have hop : opChar (joinNl ([hdr, s, rf, rt, hk] ++ rest))
      = .RENAMED_AND_MODIFIED := by
    unfold opChar
    rw [hsplit, hhrf, hpreh]
    rw [show lastWith (isOpSignal true) [hdr, s, rf, rt] = some s from by
      simp [lastWith, hsig_hdr, hsig_s, hsig_rf, hsig_rt]]
    show sigOp s = .RENAMED_AND_MODIFIED
    unfold sigOp
    rw [if_neg (by simp [sN]), if_neg (by simp [sD]),
      if_neg (by simp [hs2])]
  have hnh : nhChar Y (joinNl ([hdr, s, rf, rt, hk] ++ rest))
      = rf ++ " to " ++ Y := by
    unfold nhChar
    rw [hsplit, hpreh]
    rw [show lastWith isRenameFromLine [hdr, s, rf, rt] = some rf from by
      simp [lastWith, isRenameFromLine, hdrR, sR, rf0, rtR]]
  have hcsi : csiChar (joinNl ([hdr, s, rf, rt, hk] ++ rest)) = 4 := by
    unfold csiChar firstHunkIdx
    rw [hsplit]
    have hany : ([hdr, s, rf, rt, hk] ++ rest).any isHunkLine = true := by
      simp [isHunkLine, hk0]
    rw [if_pos hany]
    simp [List.findIdx_cons, isHunkLine, hdrH, sH, rfH, rtH, hk0]
  have hnhne : rf ++ " to " ++ Y ≠ "" := by
    intro he
    have hd := congrArg String.data he
    rw [String.data_append, String.data_append] at hd
    rcases List.append_eq_nil.mp hd with ⟨h1, _⟩
    rcases List.append_eq_nil.mp h1 with ⟨h2, _⟩
    rw [hrf_def, String.data_append] at h2
    rcases List.append_eq_nil.mp h2 with ⟨h3, _⟩
    exact absurd h3 (by decide)
  have hcontent :
      extract_diff_content (splitOnNl (joinNl ([hdr, s, rf, rt, hk]
        ++ rest))) 4 (rf ++ " to " ++ Y)
      = (rf ++ " to " ++ Y) ++ "\n" ++ joinNl (hk :: rest) := by
    rw [hsplit, extract_diff_content_eq]
    rw [if_neg (by simp)]
    rw [if_pos hnhne]
    have hdrop : ([hdr, s, rf, rt, hk] ++ rest).drop 4 = hk :: rest := by
      simp
    rw [hdrop, joinNl_cons]
  rw [clean_diff_content_char, hop, if_neg (by decide), hnh, hcsi,
    hcontent]

/-- Witness for C6 at concrete inputs with `"similarity index 92%"`. -/
theorem c6_witness :
    clean_diff_content "new.py"
      (joinNl (["diff --git a/" ++ ("old.py" ++ (" b/" ++ "new.py")),
        "similarity index 92%", "rename from " ++ "old.py",
        "rename to " ++ "new.py", "@@" ++ " -1,3 +1,3 @@"] ++
        ["-a", "+b"])) =
    ⟨"new.py", .RENAMED_AND_MODIFIED,
      (("rename from " ++ "old.py") ++ " to " ++ "new.py") ++ "\n" ++
        joinNl (("@@" ++ " -1,3 +1,3 @@") :: ["-a", "+b"])⟩ :=
  c6_renamed_and_modified "similarity index 92%" "old.py" "new.py"
    " -1,3 +1,3 @@" ["-a", "+b"] (by decide) (by decide) (by decide)
    (by decide) (by decide) (by decide) (by decide)

theorem exceptStep_assoc {α β γ : Type} (x : Except DiffError α)
    (f : α → Except DiffError β) (g : β → Except DiffError γ) :
    exceptStep (exceptStep x f) g =
      exceptStep x (fun a => exceptStep (f a) g) := by
  cases x <;> rfl

theorem savePrev_skip (wl : List String) (st : ParseState) (p : String)
    (cur' : List String) (hnw : p ∉ wl) :
    savePrev wl ⟨savePrev wl st, some p, cur'⟩ = savePrev wl st := by
  show (if p ≠ "" ∧ p ∈ wl then
      dictInsert (savePrev wl st) p (joinNl cur') else savePrev wl st)
    = savePrev wl st
  rw [if_neg (fun hc => hnw hc.2)]

/-- Processing a whole non-whitelisted block (header, then
non-header body) and then continuing is the same as continuing
directly: the block is never saved. -/
theorem parse_skip_block (wl : List String) (h : String) (p : String)
    (body post : List String) (st : ParseState)
    (hh : strStarts h "diff --git" = true)
    (hext : extract_file_path_from_diff_header h = .ok p)
    (hnw : p ∉ wl)
    (hbody : ∀ l ∈ body, isHeaderLine l = false)
    (hpost : post = [] ∨
      ∃ h₂ t, post = h₂ :: t ∧ isHeaderLine h₂ = true) :
    exceptStep (parseLoop wl (h :: (body ++ post)) st)
        (fun st => .ok (savePrev wl st)) =
      exceptStep (parseLoop wl post st)
        (fun st => .ok (savePrev wl st)) := by
  rw [parseLoop_cons_header_ok wl h _ st p hh hext]
  obtain ⟨cur', hcur⟩ := parseLoop_skip_nonheaders wl body post
    (savePrev wl st) (some p) [h] hbody
  rw [hcur]
  rcases hpost with rfl | ⟨h₂, t, rfl, hh₂⟩
  · rw [parseLoop_nil, parseLoop_nil]
    simp only [exceptStep_ok]
    rw [savePrev_skip wl st p cur' hnw]
  · cases hext₂ : extract_file_path_from_diff_header h₂ with
    | error e =>
      rw [parseLoop_cons_header_err wl h₂ t _ e hh₂ hext₂,
        parseLoop_cons_header_err wl h₂ t st e hh₂ hext₂]
    | ok p₂ =>
      rw [parseLoop_cons_header_ok wl h₂ t _ p₂ hh₂ hext₂,
        parseLoop_cons_header_ok wl h₂ t st p₂ hh₂ hext₂]
      rw [show savePrev wl ⟨savePrev wl st, some p, cur'⟩
          = savePrev wl st from savePrev_skip wl st p cur' hnw]

/-- C7.  Whitelist-filtering idempotence: deleting an entire file
block — a well-formed header whose destination path is not in the
whitelist, together with its non-header body running up to the next
header or the end of input — from the diff text does not change the
Segmenter's output for the remaining files. -/
theorem c7_whitelist_idempotent (wl : List String)
    (pre body post : List String) (h p : String)
    (hh : strStarts h "diff --git" = true)
    (hext : extract_file_path_from_diff_header h = .ok p)
    (hnw : p ∉ wl)
    (hbody : ∀ l ∈ body, isHeaderLine l = false)
    (hpost : post = [] ∨
      ∃ h₂ t, post = h₂ :: t ∧ isHeaderLine h₂ = true)
    (hnl : ∀ l ∈ pre ++ (h :: body) ++ post, '\n' ∉ l.data) :
    parse_diff_by_files (joinNl (pre ++ (h :: body) ++ post)) wl =
      parse_diff_by_files (joinNl (pre ++ post)) wl := by
  have hsplit1 : splitOnNl (joinNl (pre ++ (h :: body) ++ post))
      = pre ++ (h :: body) ++ post :=
    splitOnNl_joinNl _ (by simp) hnl
  rw [parse_eq_step, parse_eq_step, hsplit1]
  by_cases hpp : pre ++ post = []
  · obtain ⟨hpre0, hpost0⟩ := List.append_eq_nil.mp hpp
    subst hpre0
    subst hpost0
    simp only [List.nil_append, List.append_nil]
    have hl := parse_skip_block wl h p body [] ⟨[], none, []⟩ hh hext
      hnw hbody (Or.inl rfl)
    rw [List.append_nil] at hl
    rw [hl]
    rfl
  · have hsplit2 : splitOnNl (joinNl (pre ++ post)) = pre ++ post :=
      splitOnNl_joinNl _ hpp (fun l hl => hnl l (by
        rcases List.mem_append.mp hl with h1 | h1
        · exact List.mem_append.mpr
            (Or.inl (List.mem_append.mpr (Or.inl h1)))
        · exact List.mem_append.mpr (Or.inr h1)))
    rw [hsplit2, List.append_assoc, List.cons_append]
    rw [parseLoop_append, parseLoop_append, exceptStep_assoc,
      exceptStep_assoc]
    cases hpre : parseLoop wl pre ⟨[], none, []⟩ with
    | error e => rfl
    | ok st' =>
      simp only [exceptStep_ok]
      exact parse_skip_block wl h p body post st' hh hext hnw hbody
        hpost

/-- Witness for C7: dropping the non-whitelisted block for `"b"`
leaves the result for `"a"` unchanged. -/
theorem c7_witness :
    parse_diff_by_files
        (joinNl (["diff --git a/a b/a", "x"] ++
          ("diff --git a/b b/b" :: ["y"]) ++ [])) ["a"] =
      parse_diff_by_files
        (joinNl (["diff --git a/a b/a", "x"] ++ [])) ["a"] :=
  c7_whitelist_idempotent ["a"] ["diff --git a/a b/a", "x"] ["y"] []
    "diff --git a/b b/b" "b" (by decide) (by decide) (by decide)
    (by decide) (Or.inl rfl) (by decide)

end PrPrompt

